import Mathlib

/-
Verification of the heartdb reactive query layer.

The development shallowly embeds the TypeScript sources:
  * src/types.d.ts      : documents (`Doc`) and id-keyed document records (`Docs`)
  * src/live-query.ts   : `LiveQuery.processDocs`, the paging loop of `setQuery`,
                          and the change listener built by `createQueryListener`
  * src/subscription.ts : `Subscription.processDocs` (the older twin implementation)
  * src/closeable-event-target.ts : the closeable pub/sub hub
  * src/heartdb.ts      : the settled-write machinery of `put` and `post`

JavaScript objects used as id-to-document records are embedded as
insertion-ordered association lists (`List (String × Doc)`): property update
keeps the original position, new properties are appended, and `for..in`
iterates in insertion order, which matches JavaScript semantics for the
non-integer-like keys the library uses.
-/

set_option maxHeartbeats 1000000

namespace HeartDB

/-- A document as described by the Existing type of src/types.d.ts: an `_id`
string, an opaque `_rev` revision string (compared only for equality), an
optional `_deleted` flag (absent behaves as `false`, so it is embedded as a
`Bool`), and application content (abstracted as a `Nat`). -/
structure Doc where
  _id : String
  _rev : String
  _deleted : Bool
  content : Nat
deriving Repr, DecidableEq

instance : Inhabited Doc := ⟨⟨"", "", false, 0⟩⟩

/-- The Docs type of src/types.d.ts: a record of documents keyed by id,
embedded as an insertion-ordered association list. -/
abbrev Docs := List (String × Doc)

/-- Lookup of a property in a JavaScript object (`obj[k]` when present). -/
def getKey (m : Docs) (k : String) : Option Doc :=
  match m with
  | [] => none
  | (k', v) :: rest => if k' = k then some v else getKey rest k

/-- The JavaScript `k in obj` membership test. -/
def hasKey (m : Docs) (k : String) : Bool :=
  (getKey m k).isSome

/-- JavaScript property assignment `obj[k] = v`: overwrite in place when the
key exists, append otherwise. -/
def setKey (m : Docs) (k : String) (v : Doc) : Docs :=
  match m with
  | [] => [(k, v)]
  | (k', v') :: rest =>
      if k' = k then (k, v) :: rest else (k', v') :: setKey rest k v

/-- JavaScript `delete obj[k]`. -/
def delKey (m : Docs) (k : String) : Docs :=
  match m with
  | [] => []
  | (k', v') :: rest =>
      if k' = k then delKey rest k else (k', v') :: delKey rest k

/-- Keys of a record, in insertion order (the JavaScript `for..in` order). -/
def keysOf (m : Docs) : List String := m.map Prod.fst

/-- Events dispatched by the result-set classes (src/events.ts). Each of
exit, enter and update carries a Docs payload; afterchange carries the whole
post-mutation docs record. Payload records are embedded as `Docs` association
lists exactly as built by the source. -/
inductive Event where
  | exit (detail : Docs)
  | enter (detail : Docs)
  | update (detail : Docs)
  | afterchange (detail : Docs)
deriving Repr, DecidableEq

/-- Dispatch rank of an event within one processDocs invocation: exit events
are dispatched first, then enter, then update, then the afterchange event. -/
def Event.rank : Event → Nat
  | .exit _ => 0
  | .enter _ => 1
  | .update _ => 2
  | .afterchange _ => 3

/-- The four per-invocation buckets and their counters, as declared at the top
of `LiveQuery.processDocs` (src/live-query.ts lines 270 to 279) and identically
in `Subscription.processDocs` (src/subscription.ts lines 251 to 260). -/
structure Buckets where
  enterDocs : Docs
  enterCount : Nat
  updateDocs : Docs
  updateCount : Nat
  exitDocs : Docs
  exitCount : Nat
  unchangedDocs : Docs
deriving Repr, DecidableEq

/-- Relation between each bucket counter and its bucket that the processDocs
loops maintain: a counter is zero exactly when its bucket record is empty
(counters are only ever incremented together with a property assignment). -/
def BucketsFlagInv (b : Buckets) : Prop :=
  (b.enterCount = 0 ↔ b.enterDocs = []) ∧
  (b.updateCount = 0 ↔ b.updateDocs = []) ∧
  (b.exitCount = 0 ↔ b.exitDocs = [])

/-- Well-formedness of buckets: every bucket record has pairwise distinct
keys (true of every JavaScript object, and preserved by the loops). -/
def BucketsNodup (b : Buckets) : Prop :=
  (keysOf b.enterDocs).Nodup ∧ (keysOf b.updateDocs).Nodup ∧
  (keysOf b.exitDocs).Nodup ∧ (keysOf b.unchangedDocs).Nodup

namespace LiveQuery

/-- One iteration of the categorization loop of `LiveQuery.processDocs`
(src/live-query.ts lines 282 to 311): classify a single incoming document
against the docs record as it stood at entry to processDocs. -/
def classifyStep (docs : Docs) (b : Buckets) (doc : Doc) : Buckets :=
  if hasKey docs doc._id = false then
    if doc._deleted then b
    else { b with enterDocs := setKey b.enterDocs doc._id doc,
                  enterCount := b.enterCount + 1 }
  else if doc._deleted then
    { b with exitDocs := setKey b.exitDocs doc._id doc,
             exitCount := b.exitCount + 1 }
  else if doc._rev ≠ ((getKey docs doc._id).getD default)._rev then
    { b with updateDocs := setKey b.updateDocs doc._id doc,
             updateCount := b.updateCount + 1 }
  else
    { b with unchangedDocs := setKey b.unchangedDocs doc._id doc }

/-- One iteration of the replace loop of `LiveQuery.processDocs`
(src/live-query.ts lines 315 to 322): a known id that is in neither the update
nor the unchanged bucket is added to the exit bucket, with the stored document
as its value. -/
def replaceStep (b : Buckets) (entry : String × Doc) : Buckets :=
  if hasKey b.updateDocs entry.1 = false ∧ hasKey b.unchangedDocs entry.1 = false
  then { b with exitDocs := setKey b.exitDocs entry.1 entry.2,
                exitCount := b.exitCount + 1 }
  else b

/-- The bucket-building phase of `LiveQuery.processDocs`: the categorization
loop over the incoming documents followed, when `replace` is set, by the
replace loop over the current docs record (in `for..in` insertion order). -/
def computeBuckets (docs : Docs) (incomingDocs : List Doc) (replace : Bool) :
    Buckets :=
  let b1 := incomingDocs.foldl (classifyStep docs) ⟨[], 0, [], 0, [], 0, []⟩
  if replace then docs.foldl replaceStep b1 else b1

/-- Full transcription of `LiveQuery.processDocs` (src/live-query.ts lines 269
to 353). Returns the mutated docs record together with the list of events
dispatched, in dispatch order: exit, enter, update (each only when its counter
is nonzero), then the single afterchange event carrying the post-mutation
docs, or no events at all when every counter is zero (the short-circuit). -/
def processDocs (docs : Docs) (incomingDocs : List Doc) (replace : Bool) :
    Docs × List Event :=
  let b := computeBuckets docs incomingDocs replace
  if b.enterCount = 0 ∧ b.updateCount = 0 ∧ b.exitCount = 0 then (docs, [])
  else
    let evts := (if b.exitCount ≠ 0 then [Event.exit b.exitDocs] else [])
      ++ (if b.enterCount ≠ 0 then [Event.enter b.enterDocs] else [])
      ++ (if b.updateCount ≠ 0 then [Event.update b.updateDocs] else [])
    let docs1 := b.enterDocs.foldl (fun d kv => setKey d kv.1 kv.2) docs
    let docs2 := b.updateDocs.foldl (fun d kv => setKey d kv.1 kv.2) docs1
    let docs3 := b.exitDocs.foldl (fun d kv => delKey d kv.1) docs2
    (docs3, evts ++ [Event.afterchange docs3])

/-- The docs record after the three mutation loops of `LiveQuery.processDocs`
(src/live-query.ts lines 341 to 349): apply enters, then updates, then delete
every exit id. -/
def mutatedDocs (docs : Docs) (incomingDocs : List Doc) (replace : Bool) :
    Docs :=
  (computeBuckets docs incomingDocs replace).exitDocs.foldl
    (fun d kv => delKey d kv.1)
    ((computeBuckets docs incomingDocs replace).updateDocs.foldl
      (fun d kv => setKey d kv.1 kv.2)
      ((computeBuckets docs incomingDocs replace).enterDocs.foldl
        (fun d kv => setKey d kv.1 kv.2) docs))

end LiveQuery

namespace Subscription

/-- One iteration of the categorization loop of `Subscription.processDocs`
(src/subscription.ts lines 263 to 292), transcribed from that file. -/
def classifyStep (docs : Docs) (b : Buckets) (doc : Doc) : Buckets :=
  if hasKey docs doc._id = false then
    if doc._deleted then b
    else { b with enterDocs := setKey b.enterDocs doc._id doc,
                  enterCount := b.enterCount + 1 }
  else if doc._deleted then
    { b with exitDocs := setKey b.exitDocs doc._id doc,
             exitCount := b.exitCount + 1 }
  else if doc._rev ≠ ((getKey docs doc._id).getD default)._rev then
    { b with updateDocs := setKey b.updateDocs doc._id doc,
             updateCount := b.updateCount + 1 }
  else
    { b with unchangedDocs := setKey b.unchangedDocs doc._id doc }

/-- One iteration of the replace loop of `Subscription.processDocs`
(src/subscription.ts lines 296 to 303). -/
def replaceStep (b : Buckets) (entry : String × Doc) : Buckets :=
  if hasKey b.updateDocs entry.1 = false ∧ hasKey b.unchangedDocs entry.1 = false
  then { b with exitDocs := setKey b.exitDocs entry.1 entry.2,
                exitCount := b.exitCount + 1 }
  else b

/-- Bucket-building phase of `Subscription.processDocs`. -/
def computeBuckets (docs : Docs) (incomingDocs : List Doc) (replace : Bool) :
    Buckets :=
  let b1 := incomingDocs.foldl (classifyStep docs) ⟨[], 0, [], 0, [], 0, []⟩
  if replace then docs.foldl replaceStep b1 else b1

/-- Full transcription of `Subscription.processDocs` (src/subscription.ts
lines 247 to 342): same loops as the LiveQuery variant, dispatching on the
subscription's internal event target instead of the object itself. -/
def processDocs (docs : Docs) (incomingDocs : List Doc) (replace : Bool) :
    Docs × List Event :=
  let b := computeBuckets docs incomingDocs replace
  if b.enterCount = 0 ∧ b.updateCount = 0 ∧ b.exitCount = 0 then (docs, [])
  else
    let evts := (if b.exitCount ≠ 0 then [Event.exit b.exitDocs] else [])
      ++ (if b.enterCount ≠ 0 then [Event.enter b.enterDocs] else [])
      ++ (if b.updateCount ≠ 0 then [Event.update b.updateDocs] else [])
    let docs1 := b.enterDocs.foldl (fun d kv => setKey d kv.1 kv.2) docs
    let docs2 := b.updateDocs.foldl (fun d kv => setKey d kv.1 kv.2) docs1
    let docs3 := b.exitDocs.foldl (fun d kv => delKey d kv.1) docs2
    (docs3, evts ++ [Event.afterchange docs3])

end Subscription

namespace CET

/-- State of a CloseableEventTarget (src/closeable-event-target.ts): the
`closed` flag and the `listeners` map from event type to the insertion-ordered
set of registered callbacks. Callbacks are identified by opaque tokens
(callback function identity in JavaScript). The base platform EventTarget
holds a mirror of this map because every add and remove is forwarded to it,
so a dispatch delivers to exactly the callbacks recorded here. -/
structure Target where
  closed : Bool
  listeners : List (String × List Nat)
deriving Repr, DecidableEq

/-- Lookup in the listeners map (`this.listeners.get(type)`). -/
def getType (m : List (String × List Nat)) (t : String) : Option (List Nat) :=
  match m with
  | [] => none
  | (t', v) :: rest => if t' = t then some v else getType rest t

/-- JavaScript `Map.set`: overwrite in place when the key exists, append
otherwise. -/
def setType (m : List (String × List Nat)) (t : String) (v : List Nat) :
    List (String × List Nat) :=
  match m with
  | [] => [(t, v)]
  | (t', v') :: rest =>
      if t' = t then (t, v) :: rest else (t', v') :: setType rest t v

/-- JavaScript `Map.delete`. -/
def delType (m : List (String × List Nat)) (t : String) :
    List (String × List Nat) :=
  match m with
  | [] => []
  | (t', v') :: rest =>
      if t' = t then delType rest t else (t', v') :: delType rest t

/-- Transcription of `CloseableEventTarget.addEventListener`
(src/closeable-event-target.ts lines 34 to 54): throws when the target is
closed, throws when the exact callback is already registered for the type,
otherwise records the callback (creating the per-type set on first use) and
mirrors it into the base EventTarget. The disconnect closure it returns is
`removeEventListener type callback`. -/
def addEventListener (t : Target) (ty : String) (cb : Nat) :
    Except String Target :=
  if t.closed then Except.error "Event target is closed."
  else
    match getType t.listeners ty with
    | some ls =>
        if cb ∈ ls then Except.error "Listener already added."
        else Except.ok { t with listeners := setType t.listeners ty (ls ++ [cb]) }
    | none => Except.ok { t with listeners := setType t.listeners ty [cb] }

/-- The mutation performed by `removeEventListener` once past its closed
check (src/closeable-event-target.ts lines 66 to 74): no-op when the callback
is not registered, otherwise delete it from the per-type set, dropping the
set entirely when it becomes empty. -/
def removeCore (t : Target) (ty : String) (cb : Nat) : Target :=
  match getType t.listeners ty with
  | none => t
  | some ls =>
      if cb ∈ ls then
        let ls' := ls.filter (fun x => x != cb)
        if ls' = [] then { t with listeners := delType t.listeners ty }
        else { t with listeners := setType t.listeners ty ls' }
      else t

/-- Transcription of `CloseableEventTarget.removeEventListener`
(src/closeable-event-target.ts lines 62 to 75): throws when the target is
closed, otherwise performs the removal. -/
def removeEventListener (t : Target) (ty : String) (cb : Nat) :
    Except String Target :=
  if t.closed then Except.error "Event target is closed."
  else Except.ok (removeCore t ty cb)

/-- Transcription of `removeAllEventListeners`
(src/closeable-event-target.ts lines 80 to 86): remove every registered
callback of every type via the removal path. -/
def removeAllEventListeners (t : Target) : Target :=
  t.listeners.foldl
    (fun acc entry => entry.2.foldl (fun a cb => removeCore a entry.1 cb) acc) t

/-- A dispatch on the target. `CloseableEventTarget` does not override the
platform `EventTarget.dispatchEvent`, so a dispatch performs no closed check:
the result type admits an error so the specified failure behaviour can be
stated, but the code has no failing path and always returns the list of
callbacks the event reaches (the mirrored listeners of the event's type). -/
def dispatchEvent (t : Target) (ty : String) : Except String (List Nat) :=
  Except.ok ((getType t.listeners ty).getD [])

/-- Transcription of `CloseableEventTarget.close`
(src/closeable-event-target.ts lines 92 to 98): when not yet closed, dispatch
one final close notification (to the listeners of type close registered at
that moment), then remove every listener, then set the closed flag. Returns
the new state together with the recipients of the close notification. -/
def close (t : Target) : Target × List Nat :=
  if t.closed = false then
    ({ removeAllEventListeners t with closed := true },
      (getType t.listeners "close").getD [])
  else (t, [])

/-- Well-formedness of a target reachable through the class API: the map keys
are pairwise distinct (a JavaScript Map), and every per-type set is a
duplicate-free nonempty list (a JavaScript Set, deleted when emptied). -/
def WF (t : Target) : Prop :=
  ((t.listeners.map Prod.fst).Nodup) ∧
  (∀ e ∈ t.listeners, e.2 ≠ [] ∧ e.2.Nodup)

end CET

/-- A change event as delivered to listeners (src/events.ts
ChangesResponseChange with mandatory doc): the changed id, the deletion flag,
and the new document state. -/
structure Change where
  id : String
  deleted : Bool
  doc : Doc
deriving Repr, DecidableEq

/-- The mutable state of a LiveQuery relevant to query transitions
(src/live-query.ts fields): the identity token of the currently set query
object (`query`, none when unset), the docs record, the closed flag, and the
token of the query whose change listener is currently connected
(`disconnect`, none when no listener is connected). Distinct query objects
carry distinct tokens; reference equality of queries is token equality. -/
structure LQState where
  query : Option Nat
  docs : Docs
  closed : Bool
  subscribed : Option Nat
deriving Repr, DecidableEq

namespace LiveQuery

/-- The synchronous first segment of the change listener built by
`LiveQuery.createQueryListener` (src/live-query.ts lines 181 to 198), up to
the suspension at the id-narrowed find call: throws the internal error when
invoked while the captured query is no longer current; handles the
tracked-deletion fast path by dispatching an exit event whose payload is the
object literal with the single literal property name "id" (the source writes
`new ExitEvent({ id: changedDoc })`, not a computed key), deleting the id
from docs and dispatching afterchange. Otherwise the listener suspends on the
find call (`Sum.inr`). -/
def queryListenerPhase1 (st : LQState) (qtok : Nat) (chg : Change) :
    Except String (Sum (LQState × List Event) Unit) :=
  if st.closed = true ∨ st.query ≠ some qtok then
    Except.error "Unexpected change event from replaced query"
  else if hasKey st.docs chg.id = true ∧ chg.deleted = true then
    Except.ok (Sum.inl ({ st with docs := delKey st.docs chg.id },
      [Event.exit [("id", chg.doc)],
       Event.afterchange (delKey st.docs chg.id)]))
  else Except.ok (Sum.inr ())

/-- The continuation of the change listener after the id-narrowed find call
resolves (src/live-query.ts lines 200 to 261), taking the state at resumption
and the documents the find returned: silently discard when the query was
superseded during the find; on zero results dispatch an exit event (again
with the literal "id" payload property) and delete the id from docs; on more
than one result or on a result whose id disagrees raise internal errors; on
exactly one matching result classify it as enter (id unknown), update
(revision differs) or nothing (same revision). -/
def queryListenerPhase2 (st : LQState) (qtok : Nat) (chg : Change)
    (found : List Doc) : Except String (LQState × List Event) :=
  if st.closed = true ∨ st.query ≠ some qtok then Except.ok (st, [])
  else
    match found with
    | [] =>
        Except.ok ({ st with docs := delKey st.docs chg.id },
          [Event.exit [("id", chg.doc)],
           Event.afterchange (delKey st.docs chg.id)])
    | [responseDoc] =>
        if responseDoc._id ≠ chg.id then
          Except.error "Unexpected mismatched id in response to id-specific query"
        else
          match getKey st.docs chg.id with
          | none =>
              Except.ok ({ st with docs := setKey st.docs chg.id responseDoc },
                [Event.enter [(chg.id, responseDoc)],
                 Event.afterchange (setKey st.docs chg.id responseDoc)])
          | some existingDoc =>
              if responseDoc._rev = existingDoc._rev then Except.ok (st, [])
              else
                Except.ok ({ st with docs := setKey st.docs chg.id responseDoc },
                  [Event.update [(chg.id, responseDoc)],
                   Event.afterchange (setKey st.docs chg.id responseDoc)])
    | _ =>
        Except.error "Unexpected multiple doc response to id-specific query"

end LiveQuery

instance instDecEqExcept {a b : Type} [DecidableEq a] [DecidableEq b] :
    DecidableEq (Except a b) := fun x y =>
  match x, y with
  | .error u, .error v =>
      if h : u = v then isTrue (by rw [h])
      else isFalse (by intro he; cases he; exact h rfl)
  | .error _, .ok _ => isFalse (by intro h; cases h)
  | .ok _, .error _ => isFalse (by intro h; cases h)
  | .ok u, .ok v =>
      if h : u = v then isTrue (by rw [h])
      else isFalse (by intro he; cases he; exact h rfl)

/-- State of one `HeartDB.put` promise executor (src/heartdb.ts lines 145 to
160): whether the change listener registered to await the write is still
connected, and how the promise has settled, if at all. -/
structure PutState where
  connected : Bool
  settled : Option (Except String Change)
deriving Repr, DecidableEq

/-- The events the event loop can deliver to a put executor: a change event
reaching the HeartDB change hub, or the rejection of the underlying
pouchDb.put call (its fulfillment has no handler in the source). -/
inductive PutEvt where
  | change (c : Change)
  | putFailed (e : String)
deriving Repr, DecidableEq

/-- Settling of a JavaScript promise: the first settlement wins and later
resolve or reject calls are ignored. -/
def settle (s : Option (Except String Change)) (v : Except String Change) :
    Option (Except String Change) :=
  match s with
  | none => some v
  | some w => some w

/-- One event-loop turn of the put executor for a put of document id `docId`:
a change reaching the connected listener resolves the promise and disconnects
when the id matches; a failure of the storage write disconnects the listener
and rejects the promise. A change arriving once disconnected never reaches
the listener. Transcribed from src/heartdb.ts lines 148 to 159. -/
def putStep (docId : String) (s : PutState) (e : PutEvt) : PutState :=
  match e with
  | .change c =>
      if s.connected then
        if c.id = docId then
          { connected := false, settled := settle s.settled (Except.ok c) }
        else s
      else s
  | .putFailed err =>
      { connected := false, settled := settle s.settled (Except.error err) }

/-- Run a put executor over the event-loop turns it observes, from the state
just after `put` registered its change listener. -/
def runPut (docId : String) (evts : List PutEvt) : PutState :=
  evts.foldl (putStep docId) ⟨true, none⟩

/-- State of one `HeartDB.post` promise executor (src/heartdb.ts lines 169 to
230): the post response id once known, the queue of changes that arrived
before it, the listener connection, the settlement, the changes handleChange
has processed, and whether an internal error was thrown. -/
structure PostState where
  postResponse : Option String
  queue : List Change
  connected : Bool
  settled : Option (Except String Change)
  handled : List Change
  internalErr : Bool
deriving Repr, DecidableEq

/-- Events the event loop can deliver to a post executor: a change event, the
fulfillment of pouchDb.post (carrying the server-assigned id), or its
rejection. A promise settles at most once, so a trace holds at most one of
postResolved and postFailed. -/
inductive PostEvt where
  | change (c : Change)
  | postResolved (id : String)
  | postFailed (e : String)
deriving Repr, DecidableEq

/-- Transcription of the `handleChange` closure of `HeartDB.post`
(src/heartdb.ts lines 189 to 203): records the processed change, throws
internal errors when the post response or disconnect are missing, and
resolves plus disconnects when the change id matches the post response. -/
def handleChange (s : PostState) (c : Change) : PostState :=
  let s1 := { s with handled := s.handled ++ [c] }
  match s1.postResponse with
  | none => { s1 with internalErr := true }
  | some rid =>
      if s1.connected = false then { s1 with internalErr := true }
      else if c.id = rid then
        { s1 with connected := false,
                  settled := settle s1.settled (Except.ok c) }
      else s1

/-- One event-loop turn of the post executor (src/heartdb.ts lines 207 to
228): a change reaching the connected listener is handled when the post
response is known, queued otherwise; the post fulfillment stores the response
id and drains the queue through handleChange in arrival order; the post
rejection disconnects the listener and rejects the promise. -/
def postStep (s : PostState) (e : PostEvt) : PostState :=
  match e with
  | .change c =>
      if s.connected then
        match s.postResponse with
        | some _ => handleChange s c
        | none => { s with queue := s.queue ++ [c] }
      else s
  | .postResolved id =>
      let s1 := { s with postResponse := some id }
      s1.queue.foldl handleChange s1
  | .postFailed err =>
      { s with connected := false,
               settled := settle s.settled (Except.error err) }

/-- Run a post executor over the event-loop turns it observes, from the state
just after `post` registered its change listener. -/
def runPost (evts : List PostEvt) : PostState :=
  evts.foldl postStep ⟨none, [], true, none, [], false⟩

/-- A find query as used by setQuery (src/live-query.ts): an identity token
standing for the query object's reference (reference equality of query
objects is token equality), plus the optional explicit skip and limit of the
request. The selector itself stays opaque: the data source model maps each
query token to its list of matching documents. -/
structure Query where
  token : Nat
  skip : Option Nat
  limit : Option Nat
deriving Repr, DecidableEq

/-- The data source's answer to one find call, per the storage contract the
paging loop relies on: the documents matching the query in the source's
order, from offset `skip`, capped at the explicit limit when the query sets
one and otherwise at the source's enforced page size N. -/
def runFind (matching : List Doc) (N : Nat) (limit : Option Nat)
    (skip : Nat) : List Doc :=
  (matching.drop skip).take (limit.getD N)

/-- The loop exit test of setQuery (src/live-query.ts line 162):
`!docs.length || (query.limit && docs.length < query.limit)` — the
fewer-than-limit check only applies when the caller set a truthy (nonzero)
explicit limit. -/
def shortPage (limit : Option Nat) (len : Nat) : Bool :=
  match limit with
  | some l => decide (l ≠ 0) && decide (len < l)
  | none => false

namespace LiveQuery

/-- The paging loop of `LiveQuery.setQuery` (src/live-query.ts lines 142 to
166) run to completion without preemption: each round issues a find at the
running skip, merges the page through processDocs (replace on the first
request only), advances skip by the page length, and stops when the page is
empty or shorter than a truthy explicit limit. Returns the final docs, the
dispatched events, and the number of find calls performed. The fuel argument
is an artifact of the embedding: `matching.length + 1` rounds always suffice
because every continued round consumes at least one matching document. -/
def pagingLoopF (matching : List Doc) (N : Nat) (limit : Option Nat) :
    Nat → Docs → Nat → Nat → Docs × List Event × Nat
  | 0, docs, _, requestCount => (docs, [], requestCount)
  | fuel + 1, docs, skip, requestCount =>
      let page := runFind matching N limit skip
      let r := processDocs docs page (decide (requestCount + 1 = 1))
      if page.isEmpty || shortPage limit page.length then
        (r.1, r.2, requestCount + 1)
      else
        let next := pagingLoopF matching N limit fuel r.1
          (skip + page.length) (requestCount + 1)
        (next.1, r.2 ++ next.2.1, next.2.2)

/-- A full, unpreempted resolution of setQuery for query `q` against a data
source holding `matching` documents for it (page size N), starting from docs
state `docs0`: paging starts at the query's explicit skip (else 0) with
request count 0. -/
def resolveQuery (matching : List Doc) (N : Nat) (q : Query) (docs0 : Docs) :
    Docs × List Event × Nat :=
  pagingLoopF matching N q.limit (matching.length + 1) docs0 (q.skip.getD 0) 0

/-- A suspended setQuery resolution: the captured query token and limit, the
skip the in-flight find call was issued with, and that find's request
number. The continuation resumes at the `await` of src/live-query.ts line
147. -/
structure Cont where
  qtok : Nat
  limit : Option Nat
  skip : Nat
  requestCount : Nat
deriving Repr, DecidableEq

/-- An atomic event-loop action against a LiveQuery: a caller invoking
setQuery with a query object (or none), or the event loop resuming one
pending find continuation. -/
inductive Action where
  | set (q : Option Query)
  | fire (c : Cont)
deriving Repr, DecidableEq

/-- A LiveQuery together with its outstanding find continuations. -/
structure Sys where
  lq : LQState
  pending : List Cont
deriving Repr, DecidableEq

/-- The synchronous prefix of `LiveQuery.setQuery` (src/live-query.ts lines
124 to 147), up to its first suspension: a no-op when the query reference is
unchanged; otherwise the active change listener is disconnected and the new
query recorded; an unset query flushes docs through processDocs([], true)
and stops, while a set query issues the first find (request count 1, skip
from the query) and suspends. Events are tagged with the token of the query
they were emitted for (none for the unset-query flush). -/
def startQuery (s : Sys) (q : Option Query) :
    Sys × List (Option Nat × Event) :=
  if q.map Query.token = s.lq.query then (s, [])
  else
    match q with
    | none =>
        let r := processDocs s.lq.docs [] true
        let lq' : LQState :=
          { query := none, docs := r.1, closed := s.lq.closed,
            subscribed := none }
        ({ s with lq := lq' }, r.2.map (fun e => (none, e)))
    | some qq =>
        let lq' : LQState :=
          { query := some qq.token, docs := s.lq.docs, closed := s.lq.closed,
            subscribed := none }
        ({ lq := lq',
           pending := s.pending ++ [⟨qq.token, qq.limit, qq.skip.getD 0, 1⟩] },
          [])

/-- Resumption of one suspended find call (the continuation of
src/live-query.ts lines 147 to 169): if the continuation is not pending this
is a no-op; otherwise it is consumed, and if the LiveQuery was closed or the
captured query superseded during the await, the resumption returns
immediately — no events, no docs change, no subscription. A live resumption
merges its page through processDocs (replace exactly on request 1), then
either subscribes the change listener (loop done) or issues the next find.
`server` maps each query token to its matching documents. -/
def fireCont (server : Nat → List Doc) (N : Nat) (s : Sys) (c : Cont) :
    Sys × List (Option Nat × Event) :=
  if c ∈ s.pending then
    let pend := s.pending.erase c
    if s.lq.closed = true ∨ s.lq.query ≠ some c.qtok then
      ({ s with pending := pend }, [])
    else
      let page := runFind (server c.qtok) N c.limit c.skip
      let r := processDocs s.lq.docs page (decide (c.requestCount = 1))
      if page.isEmpty || shortPage c.limit page.length then
        let lq' : LQState :=
          { query := s.lq.query, docs := r.1, closed := s.lq.closed,
            subscribed := some c.qtok }
        ({ lq := lq', pending := pend }, r.2.map (fun e => (some c.qtok, e)))
      else
        let lq' : LQState :=
          { query := s.lq.query, docs := r.1, closed := s.lq.closed,
            subscribed := s.lq.subscribed }
        ({ lq := lq',
           pending := pend ++
             [⟨c.qtok, c.limit, c.skip + page.length, c.requestCount + 1⟩] },
          r.2.map (fun e => (some c.qtok, e)))
  else (s, [])

/-- One event-loop action. -/
def sysStep (server : Nat → List Doc) (N : Nat) (s : Sys) :
    Action → Sys × List (Option Nat × Event)
  | .set q => startQuery s q
  | .fire c => fireCont server N s c

/-- Run a list of event-loop actions, accumulating the tagged events. -/
def sysRun (server : Nat → List Doc) (N : Nat) (s : Sys)
    (acts : List Action) : Sys × List (Option Nat × Event) :=
  acts.foldl (fun acc a =>
    let r := sysStep server N acc.1 a
    (r.1, acc.2 ++ r.2)) (s, [])

/-- Whether an event-loop action is the resumption of a pending find
continuation (as opposed to a fresh setQuery call). -/
def Action.isFire : Action → Bool
  | .set _ => false
  | .fire _ => true

/-- Invariant of a system resolving query token `Btok` against the matching
documents `serverB`, starting from docs state `docs0`: the token is the
current query, the LiveQuery is open, and the resolution is in one of three
phases — the first find (request 1, skip 0) is in flight and docs are
untouched; a later find (request ≥ 2) is in flight with exactly the first
`skip` matching documents merged; or the loop has finished, the change
listener is subscribed for the token, and docs holds exactly the matching
documents. In the in-flight phases precisely one pending continuation
carries the token. -/
def BResInv (serverB : List Doc) (Btok : Nat) (docs0 : Docs) (s : Sys) :
    Prop :=
  s.lq.query = some Btok ∧ s.lq.closed = false ∧
  ((s.lq.docs = docs0 ∧ s.lq.subscribed = none ∧
      s.pending.count (⟨Btok, none, 0, 1⟩ : Cont) = 1 ∧
      (∀ c ∈ s.pending, c.qtok = Btok → c = ⟨Btok, none, 0, 1⟩)) ∨
   (∃ skip rc, 1 ≤ skip ∧ skip ≤ serverB.length ∧ 2 ≤ rc ∧
      s.lq.subscribed = none ∧
      s.pending.count (⟨Btok, none, skip, rc⟩ : Cont) = 1 ∧
      (∀ c ∈ s.pending, c.qtok = Btok → c = ⟨Btok, none, skip, rc⟩) ∧
      (keysOf s.lq.docs).Nodup ∧
      (∀ id, getKey s.lq.docs id =
        (serverB.take skip).find? (fun x => x._id == id))) ∨
   ((∀ c ∈ s.pending, c.qtok ≠ Btok) ∧ s.lq.subscribed = some Btok ∧
      (∀ id, getKey s.lq.docs id = serverB.find? (fun x => x._id == id))))

end LiveQuery

@[simp] theorem getKey_nil (k : String) : getKey [] k = none := rfl

@[simp] theorem getKey_cons (k' : String) (v : Doc) (rest : Docs) (k : String) :
    getKey ((k', v) :: rest) k = if k' = k then some v else getKey rest k := rfl

theorem getKey_setKey (m : Docs) (k : String) (v : Doc) (i : String) :
    getKey (setKey m k v) i = if k = i then some v else getKey m i := by
  induction m with
  | nil => simp [setKey]
  | cons hd tl ih =>
      obtain ⟨k', v'⟩ := hd
      by_cases hk : k' = k
      · subst hk
        by_cases hi : k' = i
        · subst hi; simp [setKey]
        · simp [setKey, hi]
      · by_cases hi : k' = i
        · subst hi
          have hki : k ≠ k' := fun h => hk h.symm
          simp [setKey, hk, hki]
        · simp [setKey, hk, hi, ih]

theorem getKey_delKey (m : Docs) (k : String) (i : String) :
    getKey (delKey m k) i = if k = i then none else getKey m i := by
  induction m with
  | nil => simp [delKey]
  | cons hd tl ih =>
      obtain ⟨k', v'⟩ := hd
      by_cases hk : k' = k
      · subst hk
        by_cases hi : k' = i
        · subst hi; simp [delKey, ih]
        · simp [delKey, ih, hi]
      · by_cases hi : k' = i
        · subst hi
          have hki : k ≠ k' := fun h => hk h.symm
          simp [delKey, hk, hki]
        · simp [delKey, hk, hi, ih]

theorem hasKey_iff (m : Docs) (k : String) :
    hasKey m k = true ↔ ∃ v, getKey m k = some v := by
  simp [hasKey, Option.isSome_iff_exists]

theorem hasKey_eq_false_iff (m : Docs) (k : String) :
    hasKey m k = false ↔ getKey m k = none := by
  cases h : getKey m k <;> simp [hasKey, h]

theorem getKey_eq_some_mem (m : Docs) (k : String) (v : Doc)
    (h : getKey m k = some v) : (k, v) ∈ m := by
  induction m with
  | nil => simp [getKey] at h
  | cons hd tl ih =>
      obtain ⟨k', v'⟩ := hd
      by_cases hk : k' = k
      · subst hk
        rw [getKey_cons, if_pos rfl] at h
        cases h
        exact List.mem_cons_self _ _
      · rw [getKey_cons, if_neg hk] at h
        exact List.mem_cons_of_mem _ (ih h)

theorem setKey_ne_nil (m : Docs) (k : String) (v : Doc) : setKey m k v ≠ [] := by
  cases m with
  | nil => simp [setKey]
  | cons hd tl =>
      obtain ⟨k', v'⟩ := hd
      by_cases hk : k' = k <;> simp [setKey, hk]

theorem mem_keysOf_setKey (m : Docs) (k : String) (v : Doc) (i : String) :
    i ∈ keysOf (setKey m k v) ↔ i ∈ keysOf m ∨ i = k := by
  induction m with
  | nil => simp [setKey, keysOf]
  | cons hd tl ih =>
      obtain ⟨k', v'⟩ := hd
      by_cases hk : k' = k
      · subst hk
        rw [show setKey ((k', v') :: tl) k' v = (k', v) :: tl by simp [setKey]]
        simp only [keysOf, List.map_cons, List.mem_cons]
        tauto
      · rw [show setKey ((k', v') :: tl) k v = (k', v') :: setKey tl k v by
          simp [setKey, hk]]
        simp only [keysOf, List.map_cons, List.mem_cons]
        simp only [keysOf] at ih
        rw [ih]
        tauto

theorem mem_keysOf_delKey (m : Docs) (k : String) (i : String)
    (h : i ∈ keysOf (delKey m k)) : i ∈ keysOf m := by
  induction m with
  | nil => simp [delKey, keysOf] at h
  | cons hd tl ih =>
      obtain ⟨k', v'⟩ := hd
      by_cases hk : k' = k
      · rw [show delKey ((k', v') :: tl) k = delKey tl k by simp [delKey, hk]] at h
        exact List.mem_cons_of_mem _ (ih h)
      · rw [show delKey ((k', v') :: tl) k = (k', v') :: delKey tl k by
          simp [delKey, hk]] at h
        simp only [keysOf, List.map_cons, List.mem_cons] at h ⊢
        rcases h with h | h
        · exact Or.inl h
        · exact Or.inr (ih h)

theorem nodup_keys_setKey (m : Docs) (k : String) (v : Doc)
    (h : (keysOf m).Nodup) : (keysOf (setKey m k v)).Nodup := by
  induction m with
  | nil => simp [setKey, keysOf]
  | cons hd tl ih =>
      obtain ⟨k', v'⟩ := hd
      simp only [keysOf, List.map_cons, List.nodup_cons] at h
      by_cases hk : k' = k
      · subst hk
        rw [show setKey ((k', v') :: tl) k' v = (k', v) :: tl by simp [setKey]]
        simp only [keysOf, List.map_cons, List.nodup_cons]
        exact ⟨h.1, h.2⟩
      · rw [show setKey ((k', v') :: tl) k v = (k', v') :: setKey tl k v by
          simp [setKey, hk]]
        simp only [keysOf, List.map_cons, List.nodup_cons]
        refine ⟨?_, ih h.2⟩
        intro hmem
        rcases (mem_keysOf_setKey tl k v k').mp hmem with h1 | h1
        · exact h.1 h1
        · exact hk h1

theorem nodup_keys_delKey (m : Docs) (k : String)
    (h : (keysOf m).Nodup) : (keysOf (delKey m k)).Nodup := by
  induction m with
  | nil => simp [delKey, keysOf]
  | cons hd tl ih =>
      obtain ⟨k', v'⟩ := hd
      simp only [keysOf, List.map_cons, List.nodup_cons] at h
      by_cases hk : k' = k
      · simp only [delKey, if_pos hk]
        exact ih h.2
      · simp only [delKey, if_neg hk, keysOf, List.map_cons, List.nodup_cons]
        exact ⟨fun hmem => h.1 (mem_keysOf_delKey tl k k' hmem), ih h.2⟩

theorem foldl_setKey_getKey (m : Docs) (d0 : Docs) (hm : (keysOf m).Nodup)
    (id : String) :
    getKey (m.foldl (fun d kv => setKey d kv.1 kv.2) d0) id =
      (getKey m id).or (getKey d0 id) := by
  induction m generalizing d0 with
  | nil => simp
  | cons hd tl ih =>
      obtain ⟨k, v⟩ := hd
      simp only [keysOf, List.map_cons, List.nodup_cons] at hm
      rw [List.foldl_cons, ih (setKey d0 k v) hm.2, getKey_cons, getKey_setKey]
      by_cases hk : k = id
      · subst hk
        have hnone : getKey tl k = none := by
          rw [← hasKey_eq_false_iff]
          cases h : hasKey tl k
          · rfl
          · exfalso
            obtain ⟨v', hv'⟩ := (hasKey_iff tl k).mp h
            exact hm.1 (by
              simp only [keysOf, List.mem_map]
              exact ⟨(k, v'), getKey_eq_some_mem tl k v' hv', rfl⟩)
        simp [hnone]
      · simp [hk]

theorem foldl_delKey_getKey (m : Docs) (d0 : Docs) (id : String) :
    getKey (m.foldl (fun d kv => delKey d kv.1) d0) id =
      if hasKey m id then none else getKey d0 id := by
  induction m generalizing d0 with
  | nil => simp [hasKey]
  | cons hd tl ih =>
      obtain ⟨k, v⟩ := hd
      rw [List.foldl_cons, ih (delKey d0 k)]
      by_cases hk : k = id
      · subst hk
        rw [show hasKey ((k, v) :: tl) k = true by simp [hasKey, getKey]]
        by_cases ht : hasKey tl k = true
        · simp [ht]
        · simp [ht, getKey_delKey]
      · rw [show hasKey ((k, v) :: tl) id = hasKey tl id by
          simp [hasKey, getKey, hk]]
        by_cases ht : hasKey tl id = true
        · simp [ht]
        · simp [ht, getKey_delKey, hk]

namespace LiveQuery

theorem classifyStep_getKey_ne (docs : Docs) (b : Buckets) (doc : Doc)
    (id : String) (h : doc._id ≠ id) :
    getKey (classifyStep docs b doc).enterDocs id = getKey b.enterDocs id ∧
    getKey (classifyStep docs b doc).updateDocs id = getKey b.updateDocs id ∧
    getKey (classifyStep docs b doc).exitDocs id = getKey b.exitDocs id ∧
    getKey (classifyStep docs b doc).unchangedDocs id = getKey b.unchangedDocs id := by
  unfold classifyStep
  split_ifs <;> simp [getKey_setKey, h]

theorem classifyStep_getKey_self (docs : Docs) (b : Buckets) (doc : Doc)
    (he : getKey b.enterDocs doc._id = none)
    (hu : getKey b.updateDocs doc._id = none)
    (hx : getKey b.exitDocs doc._id = none)
    (hn : getKey b.unchangedDocs doc._id = none) :
    getKey (classifyStep docs b doc).enterDocs doc._id =
      (if hasKey docs doc._id = false then
        (if doc._deleted then none else some doc) else none) ∧
    getKey (classifyStep docs b doc).exitDocs doc._id =
      (if hasKey docs doc._id = false then none
       else (if doc._deleted then some doc else none)) ∧
    getKey (classifyStep docs b doc).updateDocs doc._id =
      (if hasKey docs doc._id = false then none
       else if doc._deleted then none
       else (if doc._rev ≠ ((getKey docs doc._id).getD default)._rev
             then some doc else none)) ∧
    getKey (classifyStep docs b doc).unchangedDocs doc._id =
      (if hasKey docs doc._id = false then none
       else if doc._deleted then none
       else (if doc._rev ≠ ((getKey docs doc._id).getD default)._rev
             then none else some doc)) := by
  unfold classifyStep
  split_ifs with h1 h2 h3 <;> simp_all [getKey_setKey]

theorem classify_fold_frame (docs : Docs) (l : List Doc) (b : Buckets)
    (id : String) (hid : id ∉ l.map Doc._id) :
    getKey (l.foldl (classifyStep docs) b).enterDocs id = getKey b.enterDocs id ∧
    getKey (l.foldl (classifyStep docs) b).updateDocs id = getKey b.updateDocs id ∧
    getKey (l.foldl (classifyStep docs) b).exitDocs id = getKey b.exitDocs id ∧
    getKey (l.foldl (classifyStep docs) b).unchangedDocs id =
      getKey b.unchangedDocs id := by
  induction l generalizing b with
  | nil => simp
  | cons h t ih =>
      simp only [List.map_cons, List.mem_cons] at hid
      push_neg at hid
      have hne : h._id ≠ id := fun he => hid.1 he.symm
      obtain ⟨e1, e2, e3, e4⟩ := classifyStep_getKey_ne docs b h id hne
      obtain ⟨f1, f2, f3, f4⟩ := ih (classifyStep docs b h) hid.2
      exact ⟨f1.trans e1, f2.trans e2, f3.trans e3, f4.trans e4⟩

theorem classify_fold_char (docs : Docs) (l : List Doc) (b : Buckets) (d : Doc)
    (hnd : (l.map Doc._id).Nodup) (hd : d ∈ l)
    (he : getKey b.enterDocs d._id = none)
    (hu : getKey b.updateDocs d._id = none)
    (hx : getKey b.exitDocs d._id = none)
    (hn : getKey b.unchangedDocs d._id = none) :
    getKey (l.foldl (classifyStep docs) b).enterDocs d._id =
      (if hasKey docs d._id = false then
        (if d._deleted then none else some d) else none) ∧
    getKey (l.foldl (classifyStep docs) b).exitDocs d._id =
      (if hasKey docs d._id = false then none
       else (if d._deleted then some d else none)) ∧
    getKey (l.foldl (classifyStep docs) b).updateDocs d._id =
      (if hasKey docs d._id = false then none
       else if d._deleted then none
       else (if d._rev ≠ ((getKey docs d._id).getD default)._rev
             then some d else none)) ∧
    getKey (l.foldl (classifyStep docs) b).unchangedDocs d._id =
      (if hasKey docs d._id = false then none
       else if d._deleted then none
       else (if d._rev ≠ ((getKey docs d._id).getD default)._rev
             then none else some d)) := by
  induction l generalizing b with
  | nil => simp at hd
  | cons h t ih =>
      simp only [List.map_cons, List.nodup_cons] at hnd
      rcases List.mem_cons.mp hd with hdh | hdt
      · subst hdh
        obtain ⟨s1, s2, s3, s4⟩ := classifyStep_getKey_self docs b d he hu hx hn
        have hidt : d._id ∉ t.map Doc._id := hnd.1
        obtain ⟨f1, f2, f3, f4⟩ :=
          classify_fold_frame docs t (classifyStep docs b d) d._id hidt
        exact ⟨f1.trans s1, f3.trans s2, f2.trans s3, f4.trans s4⟩
      · have hne : h._id ≠ d._id := by
          intro heq
          exact hnd.1 (heq ▸ List.mem_map_of_mem Doc._id hdt)
        obtain ⟨e1, e2, e3, e4⟩ := classifyStep_getKey_ne docs b h d._id hne
        exact ih (classifyStep docs b h) hnd.2 hdt (e1.trans he) (e2.trans hu)
          (e3.trans hx) (e4.trans hn)

theorem replaceStep_frame (b : Buckets) (entry : String × Doc) :
    (replaceStep b entry).enterDocs = b.enterDocs ∧
    (replaceStep b entry).updateDocs = b.updateDocs ∧
    (replaceStep b entry).unchangedDocs = b.unchangedDocs ∧
    (replaceStep b entry).enterCount = b.enterCount ∧
    (replaceStep b entry).updateCount = b.updateCount := by
  unfold replaceStep
  split_ifs <;> simp

theorem replace_fold_frame (dl : List (String × Doc)) (b : Buckets) :
    (dl.foldl replaceStep b).enterDocs = b.enterDocs ∧
    (dl.foldl replaceStep b).updateDocs = b.updateDocs ∧
    (dl.foldl replaceStep b).unchangedDocs = b.unchangedDocs ∧
    (dl.foldl replaceStep b).enterCount = b.enterCount ∧
    (dl.foldl replaceStep b).updateCount = b.updateCount := by
  induction dl generalizing b with
  | nil => simp
  | cons hd tl ih =>
      obtain ⟨e1, e2, e3, e4, e5⟩ := replaceStep_frame b hd
      obtain ⟨f1, f2, f3, f4, f5⟩ := ih (replaceStep b hd)
      exact ⟨f1.trans e1, f2.trans e2, f3.trans e3, f4.trans e4, f5.trans e5⟩

theorem replace_fold_exit_notmem (dl : List (String × Doc)) (b : Buckets)
    (id : String) (hid : id ∉ dl.map Prod.fst) :
    getKey (dl.foldl replaceStep b).exitDocs id = getKey b.exitDocs id := by
  induction dl generalizing b with
  | nil => simp
  | cons hd tl ih =>
      simp only [List.map_cons, List.mem_cons] at hid
      push_neg at hid
      have hne : hd.1 ≠ id := fun h => hid.1 h.symm
      have step : getKey (replaceStep b hd).exitDocs id = getKey b.exitDocs id := by
        unfold replaceStep
        split_ifs <;> simp [getKey_setKey, hne]
      exact (ih (replaceStep b hd) hid.2).trans step

theorem replace_fold_exit_mem (dl : List (String × Doc)) (b : Buckets)
    (k : String) (v : Doc) (hnd : (dl.map Prod.fst).Nodup) (hin : (k, v) ∈ dl) :
    getKey (dl.foldl replaceStep b).exitDocs k =
      if hasKey b.updateDocs k = false ∧ hasKey b.unchangedDocs k = false
      then some v else getKey b.exitDocs k := by
  induction dl generalizing b with
  | nil => simp at hin
  | cons hd tl ih =>
      simp only [List.map_cons, List.nodup_cons] at hnd
      rcases List.mem_cons.mp hin with hh | ht
      · subst hh
        have hkt : k ∉ tl.map Prod.fst := hnd.1
        rw [List.foldl_cons, replace_fold_exit_notmem tl (replaceStep b (k, v)) k hkt]
        unfold replaceStep
        split_ifs with hc
        · simp [getKey_setKey]
        · rfl
      · have hne : hd.1 ≠ k := by
          intro heq
          apply hnd.1
          rw [heq]
          exact List.mem_map_of_mem Prod.fst ht
        rw [List.foldl_cons]
        have hstep1 : getKey (replaceStep b hd).exitDocs k = getKey b.exitDocs k := by
          unfold replaceStep
          split_ifs <;> simp [getKey_setKey, hne]
        have hstep2 : (replaceStep b hd).updateDocs = b.updateDocs :=
          (replaceStep_frame b hd).2.1
        have hstep3 : (replaceStep b hd).unchangedDocs = b.unchangedDocs :=
          (replaceStep_frame b hd).2.2.1
        rw [ih (replaceStep b hd) hnd.2 ht, hstep1, hstep2, hstep3]

theorem computeBuckets_true (docs : Docs) (incoming : List Doc) :
    computeBuckets docs incoming true =
      docs.foldl replaceStep
        (incoming.foldl (classifyStep docs) ⟨[], 0, [], 0, [], 0, []⟩) := rfl

theorem computeBuckets_false (docs : Docs) (incoming : List Doc) :
    computeBuckets docs incoming false =
      incoming.foldl (classifyStep docs) ⟨[], 0, [], 0, [], 0, []⟩ := rfl

theorem hasKey_iff_mem_keysOf (m : Docs) (id : String) :
    hasKey m id = true ↔ id ∈ keysOf m := by
  induction m with
  | nil => simp [hasKey, getKey, keysOf]
  | cons hd tl ih =>
      obtain ⟨k, v⟩ := hd
      by_cases hk : k = id
      · subst hk
        simp [hasKey, getKey, keysOf]
      · rw [show hasKey ((k, v) :: tl) id = hasKey tl id by
          simp [hasKey, getKey, hk]]
        simp only [keysOf, List.map_cons, List.mem_cons]
        rw [ih]
        simp only [keysOf]
        constructor
        · exact Or.inr
        · rintro (h | h)
          · exact absurd h.symm hk
          · exact h

theorem exists_mem_id_iff (incoming : List Doc)
    (hi : (incoming.map Doc._id).Nodup) (P : Doc → Prop) (d : Doc)
    (hd : d ∈ incoming) :
    (∃ d' ∈ incoming, d'._id = d._id ∧ P d') ↔ P d := by
  constructor
  · rintro ⟨d', hd', heq, hP⟩
    exact (List.inj_on_of_nodup_map hi hd' hd heq) ▸ hP
  · intro hP
    exact ⟨d, hd, rfl, hP⟩

theorem classifyStep_flagInv (docs : Docs) (b : Buckets) (doc : Doc)
    (h : BucketsFlagInv b) : BucketsFlagInv (classifyStep docs b doc) := by
  obtain ⟨h1, h2, h3⟩ := h
  unfold classifyStep
  split_ifs <;>
    exact ⟨by simp [setKey_ne_nil, h1, h2, h3],
           by simp [setKey_ne_nil, h1, h2, h3],
           by simp [setKey_ne_nil, h1, h2, h3]⟩

theorem replaceStep_flagInv (b : Buckets) (entry : String × Doc)
    (h : BucketsFlagInv b) : BucketsFlagInv (replaceStep b entry) := by
  obtain ⟨h1, h2, h3⟩ := h
  unfold replaceStep
  split_ifs <;>
    exact ⟨by simp [setKey_ne_nil, h1, h2, h3],
           by simp [setKey_ne_nil, h1, h2, h3],
           by simp [setKey_ne_nil, h1, h2, h3]⟩

theorem computeBuckets_flagInv (docs : Docs) (incoming : List Doc)
    (replace : Bool) : BucketsFlagInv (computeBuckets docs incoming replace) := by
  have base : BucketsFlagInv ⟨[], 0, [], 0, [], 0, []⟩ := by
    constructor <;> simp
  have classify : ∀ (l : List Doc) (b : Buckets), BucketsFlagInv b →
      BucketsFlagInv (l.foldl (classifyStep docs) b) := by
    intro l
    induction l with
    | nil => intro b hb; exact hb
    | cons h t ih => intro b hb; exact ih _ (classifyStep_flagInv docs b h hb)
  have repl : ∀ (dl : List (String × Doc)) (b : Buckets), BucketsFlagInv b →
      BucketsFlagInv (dl.foldl replaceStep b) := by
    intro dl
    induction dl with
    | nil => intro b hb; exact hb
    | cons h t ih => intro b hb; exact ih _ (replaceStep_flagInv b h hb)
  cases replace
  · rw [computeBuckets_false]
    exact classify incoming _ base
  · rw [computeBuckets_true]
    exact repl docs _ (classify incoming _ base)

theorem classifyStep_nodup (docs : Docs) (b : Buckets) (doc : Doc)
    (h : BucketsNodup b) : BucketsNodup (classifyStep docs b doc) := by
  obtain ⟨n1, n2, n3, n4⟩ := h
  unfold classifyStep
  split_ifs <;>
    exact ⟨by first | exact n1 | exact nodup_keys_setKey _ _ _ n1,
           by first | exact n2 | exact nodup_keys_setKey _ _ _ n2,
           by first | exact n3 | exact nodup_keys_setKey _ _ _ n3,
           by first | exact n4 | exact nodup_keys_setKey _ _ _ n4⟩

theorem replaceStep_nodup (b : Buckets) (entry : String × Doc)
    (h : BucketsNodup b) : BucketsNodup (replaceStep b entry) := by
  obtain ⟨n1, n2, n3, n4⟩ := h
  unfold replaceStep
  split_ifs <;>
    exact ⟨by first | exact n1 | exact nodup_keys_setKey _ _ _ n1,
           by first | exact n2 | exact nodup_keys_setKey _ _ _ n2,
           by first | exact n3 | exact nodup_keys_setKey _ _ _ n3,
           by first | exact n4 | exact nodup_keys_setKey _ _ _ n4⟩

theorem computeBuckets_nodup (docs : Docs) (incoming : List Doc)
    (replace : Bool) : BucketsNodup (computeBuckets docs incoming replace) := by
  have base : BucketsNodup ⟨[], 0, [], 0, [], 0, []⟩ := by
    constructor <;> simp [keysOf]
  have classify : ∀ (l : List Doc) (b : Buckets), BucketsNodup b →
      BucketsNodup (l.foldl (classifyStep docs) b) := by
    intro l
    induction l with
    | nil => intro b hb; exact hb
    | cons h t ih => intro b hb; exact ih _ (classifyStep_nodup docs b h hb)
  have repl : ∀ (dl : List (String × Doc)) (b : Buckets), BucketsNodup b →
      BucketsNodup (dl.foldl replaceStep b) := by
    intro dl
    induction dl with
    | nil => intro b hb; exact hb
    | cons h t ih => intro b hb; exact ih _ (replaceStep_nodup b h hb)
  cases replace
  · rw [computeBuckets_false]
    exact classify incoming _ base
  · rw [computeBuckets_true]
    exact repl docs _ (classify incoming _ base)

theorem computeBuckets_enter_mem (docs : Docs) (incoming : List Doc)
    (replace : Bool) (hi : (incoming.map Doc._id).Nodup) (d : Doc)
    (hd : d ∈ incoming) :
    getKey (computeBuckets docs incoming replace).enterDocs d._id =
      (if hasKey docs d._id = false then
        (if d._deleted then none else some d) else none) := by
  have hc := classify_fold_char docs incoming ⟨[], 0, [], 0, [], 0, []⟩ d hi hd
    rfl rfl rfl rfl
  cases replace
  · rw [computeBuckets_false]
    exact hc.1
  · rw [computeBuckets_true, (replace_fold_frame docs _).1]
    exact hc.1

theorem computeBuckets_update_mem (docs : Docs) (incoming : List Doc)
    (replace : Bool) (hi : (incoming.map Doc._id).Nodup) (d : Doc)
    (hd : d ∈ incoming) :
    getKey (computeBuckets docs incoming replace).updateDocs d._id =
      (if hasKey docs d._id = false then none
       else if d._deleted then none
       else (if d._rev ≠ ((getKey docs d._id).getD default)._rev
             then some d else none)) := by
  have hc := classify_fold_char docs incoming ⟨[], 0, [], 0, [], 0, []⟩ d hi hd
    rfl rfl rfl rfl
  cases replace
  · rw [computeBuckets_false]
    exact hc.2.2.1
  · rw [computeBuckets_true, (replace_fold_frame docs _).2.1]
    exact hc.2.2.1

theorem computeBuckets_unchanged_mem (docs : Docs) (incoming : List Doc)
    (replace : Bool) (hi : (incoming.map Doc._id).Nodup) (d : Doc)
    (hd : d ∈ incoming) :
    getKey (computeBuckets docs incoming replace).unchangedDocs d._id =
      (if hasKey docs d._id = false then none
       else if d._deleted then none
       else (if d._rev ≠ ((getKey docs d._id).getD default)._rev
             then none else some d)) := by
  have hc := classify_fold_char docs incoming ⟨[], 0, [], 0, [], 0, []⟩ d hi hd
    rfl rfl rfl rfl
  cases replace
  · rw [computeBuckets_false]
    exact hc.2.2.2
  · rw [computeBuckets_true, (replace_fold_frame docs _).2.2.1]
    exact hc.2.2.2

theorem computeBuckets_enter_notmem (docs : Docs) (incoming : List Doc)
    (replace : Bool) (id : String) (hid : id ∉ incoming.map Doc._id) :
    getKey (computeBuckets docs incoming replace).enterDocs id = none := by
  have hf := classify_fold_frame docs incoming ⟨[], 0, [], 0, [], 0, []⟩ id hid
  cases replace
  · rw [computeBuckets_false]
    exact hf.1
  · rw [computeBuckets_true, (replace_fold_frame docs _).1]
    exact hf.1

theorem computeBuckets_update_notmem (docs : Docs) (incoming : List Doc)
    (replace : Bool) (id : String) (hid : id ∉ incoming.map Doc._id) :
    getKey (computeBuckets docs incoming replace).updateDocs id = none := by
  have hf := classify_fold_frame docs incoming ⟨[], 0, [], 0, [], 0, []⟩ id hid
  cases replace
  · rw [computeBuckets_false]
    exact hf.2.1
  · rw [computeBuckets_true, (replace_fold_frame docs _).2.1]
    exact hf.2.1

theorem computeBuckets_unchanged_notmem (docs : Docs) (incoming : List Doc)
    (replace : Bool) (id : String) (hid : id ∉ incoming.map Doc._id) :
    getKey (computeBuckets docs incoming replace).unchangedDocs id = none := by
  have hf := classify_fold_frame docs incoming ⟨[], 0, [], 0, [], 0, []⟩ id hid
  cases replace
  · rw [computeBuckets_false]
    exact hf.2.2.2
  · rw [computeBuckets_true, (replace_fold_frame docs _).2.2.1]
    exact hf.2.2.2

theorem computeBuckets_enter_iff (docs : Docs) (incoming : List Doc)
    (replace : Bool) (hi : (incoming.map Doc._id).Nodup) (id : String) :
    hasKey (computeBuckets docs incoming replace).enterDocs id = true ↔
      ∃ d ∈ incoming, d._id = id ∧ hasKey docs id = false ∧
        d._deleted = false := by
  by_cases hin : id ∈ incoming.map Doc._id
  · obtain ⟨d, hd, rfl⟩ := List.mem_map.mp hin
    rw [exists_mem_id_iff incoming hi
      (fun d' => hasKey docs d._id = false ∧ d'._deleted = false) d hd]
    simp only [hasKey, computeBuckets_enter_mem docs incoming replace hi d hd]
    split_ifs <;> simp_all
  · rw [show hasKey (computeBuckets docs incoming replace).enterDocs id =
      false by
        rw [hasKey_eq_false_iff]
        exact computeBuckets_enter_notmem docs incoming replace id hin]
    constructor
    · intro h; cases h
    · rintro ⟨d', hd', rfl, _⟩
      exact absurd (List.mem_map_of_mem Doc._id hd') hin

theorem computeBuckets_update_iff (docs : Docs) (incoming : List Doc)
    (replace : Bool) (hi : (incoming.map Doc._id).Nodup) (id : String) :
    hasKey (computeBuckets docs incoming replace).updateDocs id = true ↔
      ∃ d ∈ incoming, d._id = id ∧ ∃ e, getKey docs id = some e ∧
        d._deleted = false ∧ d._rev ≠ e._rev := by
  by_cases hin : id ∈ incoming.map Doc._id
  · obtain ⟨d, hd, rfl⟩ := List.mem_map.mp hin
    rw [exists_mem_id_iff incoming hi
      (fun d' => ∃ e, getKey docs d._id = some e ∧ d'._deleted = false ∧
        d'._rev ≠ e._rev) d hd]
    have hval := computeBuckets_update_mem docs incoming replace hi d hd
    cases hdocs : getKey docs d._id with
    | none =>
        rw [show hasKey docs d._id = false by
          rw [hasKey_eq_false_iff]; exact hdocs] at hval
        simp only [if_pos rfl] at hval
        rw [show hasKey (computeBuckets docs incoming replace).updateDocs
          d._id = false by rw [hasKey_eq_false_iff]; exact hval]
        simp [hdocs]
    | some e =>
        rw [show hasKey docs d._id = true by
          rw [hasKey_iff]; exact ⟨e, hdocs⟩, hdocs] at hval
        simp only [Bool.true_eq_false, if_false, Option.getD_some] at hval
        unfold hasKey
        rw [hval]
        split_ifs <;> simp_all
  · rw [show hasKey (computeBuckets docs incoming replace).updateDocs id =
      false by
        rw [hasKey_eq_false_iff]
        exact computeBuckets_update_notmem docs incoming replace id hin]
    constructor
    · intro h; cases h
    · rintro ⟨d', hd', rfl, _⟩
      exact absurd (List.mem_map_of_mem Doc._id hd') hin

theorem computeBuckets_unchanged_iff (docs : Docs) (incoming : List Doc)
    (replace : Bool) (hi : (incoming.map Doc._id).Nodup) (id : String) :
    hasKey (computeBuckets docs incoming replace).unchangedDocs id = true ↔
      ∃ d ∈ incoming, d._id = id ∧ ∃ e, getKey docs id = some e ∧
        d._deleted = false ∧ d._rev = e._rev := by
  by_cases hin : id ∈ incoming.map Doc._id
  · obtain ⟨d, hd, rfl⟩ := List.mem_map.mp hin
    rw [exists_mem_id_iff incoming hi
      (fun d' => ∃ e, getKey docs d._id = some e ∧ d'._deleted = false ∧
        d'._rev = e._rev) d hd]
    have hval := computeBuckets_unchanged_mem docs incoming replace hi d hd
    cases hdocs : getKey docs d._id with
    | none =>
        rw [show hasKey docs d._id = false by
          rw [hasKey_eq_false_iff]; exact hdocs] at hval
        simp only [if_pos rfl] at hval
        rw [show hasKey (computeBuckets docs incoming replace).unchangedDocs
          d._id = false by rw [hasKey_eq_false_iff]; exact hval]
        simp [hdocs]
    | some e =>
        rw [show hasKey docs d._id = true by
          rw [hasKey_iff]; exact ⟨e, hdocs⟩, hdocs] at hval
        simp only [Bool.true_eq_false, if_false, Option.getD_some] at hval
        unfold hasKey
        rw [hval]
        split_ifs <;> simp_all
  · rw [show hasKey (computeBuckets docs incoming replace).unchangedDocs id =
      false by
        rw [hasKey_eq_false_iff]
        exact computeBuckets_unchanged_notmem docs incoming replace id hin]
    constructor
    · intro h; cases h
    · rintro ⟨d', hd', rfl, _⟩
      exact absurd (List.mem_map_of_mem Doc._id hd') hin

theorem classify_exit_hasKey (docs : Docs) (incoming : List Doc)
    (hi : (incoming.map Doc._id).Nodup) (id : String) :
    hasKey (incoming.foldl (classifyStep docs)
        ⟨[], 0, [], 0, [], 0, []⟩).exitDocs id = true ↔
      (∃ d ∈ incoming, d._id = id ∧ d._deleted = true) ∧
        hasKey docs id = true := by
  by_cases hin : id ∈ incoming.map Doc._id
  · obtain ⟨d, hd, rfl⟩ := List.mem_map.mp hin
    have hc := (classify_fold_char docs incoming ⟨[], 0, [], 0, [], 0, []⟩ d hi hd
      rfl rfl rfl rfl).2.1
    rw [show (∃ d' ∈ incoming, d'._id = d._id ∧ d'._deleted = true) ∧
        hasKey docs d._id = true ↔
        ((d._deleted = true) ∧ hasKey docs d._id = true) by
      rw [exists_mem_id_iff incoming hi (fun d' => d'._deleted = true) d hd]]
    cases hdocs : getKey docs d._id with
    | none =>
        rw [show hasKey docs d._id = false by
          rw [hasKey_eq_false_iff]; exact hdocs] at hc ⊢
        simp only [if_pos rfl] at hc
        rw [show hasKey (incoming.foldl (classifyStep docs)
            ⟨[], 0, [], 0, [], 0, []⟩).exitDocs d._id = false by
          rw [hasKey_eq_false_iff]; exact hc]
        simp
    | some e =>
        rw [show hasKey docs d._id = true by
          rw [hasKey_iff]; exact ⟨e, hdocs⟩] at hc ⊢
        simp only [Bool.true_eq_false, if_false] at hc
        unfold hasKey
        rw [hc]
        split_ifs <;> simp_all
  · have hf := (classify_fold_frame docs incoming ⟨[], 0, [], 0, [], 0, []⟩ id
      hin).2.2.1
    rw [show hasKey (incoming.foldl (classifyStep docs)
        ⟨[], 0, [], 0, [], 0, []⟩).exitDocs id = false by
      rw [hasKey_eq_false_iff]; exact hf]
    constructor
    · intro h; cases h
    · rintro ⟨⟨d', hd', rfl, _⟩, _⟩
      exact absurd (List.mem_map_of_mem Doc._id hd') hin

theorem computeBuckets_exit_iff (docs : Docs) (incoming : List Doc)
    (replace : Bool) (hm : (keysOf docs).Nodup)
    (hi : (incoming.map Doc._id).Nodup) (id : String) :
    hasKey (computeBuckets docs incoming replace).exitDocs id = true ↔
      ((∃ d ∈ incoming, d._id = id ∧ d._deleted = true) ∧
        hasKey docs id = true) ∨
      (replace = true ∧ hasKey docs id = true ∧
        hasKey (computeBuckets docs incoming replace).updateDocs id = false ∧
        hasKey (computeBuckets docs incoming replace).unchangedDocs id = false) := by
  cases replace
  · rw [computeBuckets_false]
    rw [classify_exit_hasKey docs incoming hi id]
    simp
  · have hupd : (computeBuckets docs incoming true).updateDocs =
        (incoming.foldl (classifyStep docs) ⟨[], 0, [], 0, [], 0, []⟩).updateDocs := by
      rw [computeBuckets_true]
      exact (replace_fold_frame docs _).2.1
    have hunch : (computeBuckets docs incoming true).unchangedDocs =
        (incoming.foldl (classifyStep docs) ⟨[], 0, [], 0, [], 0, []⟩).unchangedDocs := by
      rw [computeBuckets_true]
      exact (replace_fold_frame docs _).2.2.1
    by_cases hdocs : hasKey docs id = true
    · obtain ⟨w, hw⟩ := (hasKey_iff docs id).mp hdocs
      have hwmem : (id, w) ∈ docs := getKey_eq_some_mem docs id w hw
      have hx := replace_fold_exit_mem docs
        (incoming.foldl (classifyStep docs) ⟨[], 0, [], 0, [], 0, []⟩) id w hm hwmem
      rw [show (computeBuckets docs incoming true).exitDocs =
        (docs.foldl replaceStep (incoming.foldl (classifyStep docs)
          ⟨[], 0, [], 0, [], 0, []⟩)).exitDocs by rw [computeBuckets_true]]
      by_cases hc : hasKey (incoming.foldl (classifyStep docs)
          ⟨[], 0, [], 0, [], 0, []⟩).updateDocs id = false ∧
          hasKey (incoming.foldl (classifyStep docs)
          ⟨[], 0, [], 0, [], 0, []⟩).unchangedDocs id = false
      · rw [show hasKey (docs.foldl replaceStep (incoming.foldl
          (classifyStep docs) ⟨[], 0, [], 0, [], 0, []⟩)).exitDocs id = true by
            rw [hasKey_iff]
            exact ⟨w, by rw [hx, if_pos hc]⟩]
        rw [hupd, hunch]
        simp [hdocs, hc.1, hc.2]
      · rw [show hasKey (docs.foldl replaceStep (incoming.foldl
          (classifyStep docs) ⟨[], 0, [], 0, [], 0, []⟩)).exitDocs id =
            hasKey (incoming.foldl (classifyStep docs)
              ⟨[], 0, [], 0, [], 0, []⟩).exitDocs id by
            unfold hasKey
            rw [hx, if_neg hc]]
        rw [classify_exit_hasKey docs incoming hi id, hupd, hunch]
        constructor
        · intro h; exact Or.inl h
        · rintro (h | ⟨_, _, hu, hn⟩)
          · exact h
          · exact absurd ⟨hu, hn⟩ hc
    · have hid : id ∉ docs.map Prod.fst := by
        intro hmem
        exact hdocs ((hasKey_iff_mem_keysOf docs id).mpr hmem)
      rw [show (computeBuckets docs incoming true).exitDocs =
        (docs.foldl replaceStep (incoming.foldl (classifyStep docs)
          ⟨[], 0, [], 0, [], 0, []⟩)).exitDocs by rw [computeBuckets_true]]
      rw [show hasKey (docs.foldl replaceStep (incoming.foldl
        (classifyStep docs) ⟨[], 0, [], 0, [], 0, []⟩)).exitDocs id =
          hasKey (incoming.foldl (classifyStep docs)
            ⟨[], 0, [], 0, [], 0, []⟩).exitDocs id by
          unfold hasKey
          rw [replace_fold_exit_notmem docs _ id hid]]
      rw [classify_exit_hasKey docs incoming hi id]
      constructor
      · rintro ⟨h1, h2⟩
        exact absurd h2 hdocs
      · rintro (⟨h1, h2⟩ | ⟨_, h2, _⟩) <;> exact absurd h2 hdocs

theorem processDocs_eq (docs : Docs) (incoming : List Doc) (replace : Bool) :
    processDocs docs incoming replace =
      if (computeBuckets docs incoming replace).enterCount = 0 ∧
          (computeBuckets docs incoming replace).updateCount = 0 ∧
          (computeBuckets docs incoming replace).exitCount = 0
      then (docs, [])
      else (mutatedDocs docs incoming replace,
        ((if (computeBuckets docs incoming replace).exitCount ≠ 0 then
            [Event.exit (computeBuckets docs incoming replace).exitDocs] else [])
          ++ (if (computeBuckets docs incoming replace).enterCount ≠ 0 then
            [Event.enter (computeBuckets docs incoming replace).enterDocs] else [])
          ++ (if (computeBuckets docs incoming replace).updateCount ≠ 0 then
            [Event.update (computeBuckets docs incoming replace).updateDocs] else []))
          ++ [Event.afterchange (mutatedDocs docs incoming replace)]) := rfl

theorem processDocs_shortcircuit (docs : Docs) (incoming : List Doc)
    (replace : Bool)
    (he : (computeBuckets docs incoming replace).enterDocs = [])
    (hu : (computeBuckets docs incoming replace).updateDocs = [])
    (hx : (computeBuckets docs incoming replace).exitDocs = []) :
    processDocs docs incoming replace = (docs, []) := by
  have hflag := computeBuckets_flagInv docs incoming replace
  rw [processDocs_eq, if_pos ⟨hflag.1.mpr he, hflag.2.1.mpr hu, hflag.2.2.mpr hx⟩]

theorem processDocs_fst_getKey (docs : Docs) (incoming : List Doc)
    (replace : Bool) (id : String) :
    getKey (processDocs docs incoming replace).1 id =
      if hasKey (computeBuckets docs incoming replace).exitDocs id then none
      else ((getKey (computeBuckets docs incoming replace).updateDocs id).or
        ((getKey (computeBuckets docs incoming replace).enterDocs id).or
          (getKey docs id))) := by
  have hnodup := computeBuckets_nodup docs incoming replace
  rw [processDocs_eq]
  by_cases h0 : (computeBuckets docs incoming replace).enterCount = 0 ∧
      (computeBuckets docs incoming replace).updateCount = 0 ∧
      (computeBuckets docs incoming replace).exitCount = 0
  · rw [if_pos h0]
    have hflag := computeBuckets_flagInv docs incoming replace
    have he := hflag.1.mp h0.1
    have hu := hflag.2.1.mp h0.2.1
    have hx := hflag.2.2.mp h0.2.2
    simp [he, hu, hx, hasKey, getKey]
  · rw [if_neg h0]
    show getKey (mutatedDocs docs incoming replace) id = _
    unfold mutatedDocs
    rw [foldl_delKey_getKey, foldl_setKey_getKey _ _ hnodup.2.1,
      foldl_setKey_getKey _ _ hnodup.1]

end LiveQuery

/-- C1: `LiveQuery.processDocs(incomingDocs, replace)` partitions the incoming
documents into disjoint buckets by id: enter exactly when the id is unknown
and the document is not deleted (a deleted unknown document lands in no bucket
at all), exit exactly when the id is known and the document is deleted or,
under replace, when a known id is in neither the update nor the unchanged
bucket, update exactly when the id is known, not deleted and the revision
differs, unchanged exactly when the id is known, not deleted and the revision
matches; afterwards docs equals the old docs overwritten with the enter and
update buckets with every exit id removed; and when all three active buckets
are empty, docs is unchanged and no event is dispatched. -/
theorem claim1_processDocs_partition (docs : Docs) (incoming : List Doc)
    (replace : Bool) (hm : (keysOf docs).Nodup)
    (hi : (incoming.map Doc._id).Nodup) (B : Buckets)
    (hB : B = LiveQuery.computeBuckets docs incoming replace) :
    (∀ d ∈ incoming, getKey B.enterDocs d._id =
      (if hasKey docs d._id = false ∧ d._deleted = false then some d else none)) ∧
    (∀ d ∈ incoming, hasKey docs d._id = false → d._deleted = true →
      hasKey B.enterDocs d._id = false ∧ hasKey B.updateDocs d._id = false ∧
      hasKey B.exitDocs d._id = false ∧ hasKey B.unchangedDocs d._id = false) ∧
    (∀ d ∈ incoming, (hasKey B.updateDocs d._id = true ↔
      ∃ e, getKey docs d._id = some e ∧ d._deleted = false ∧ d._rev ≠ e._rev)) ∧
    (∀ d ∈ incoming, (hasKey B.unchangedDocs d._id = true ↔
      ∃ e, getKey docs d._id = some e ∧ d._deleted = false ∧ d._rev = e._rev)) ∧
    (∀ id, (hasKey B.exitDocs id = true ↔
      ((∃ d ∈ incoming, d._id = id ∧ d._deleted = true) ∧
        hasKey docs id = true) ∨
      (replace = true ∧ hasKey docs id = true ∧
        hasKey B.updateDocs id = false ∧ hasKey B.unchangedDocs id = false))) ∧
    (∀ id, ¬(hasKey B.enterDocs id = true ∧ hasKey B.exitDocs id = true)) ∧
    (∀ id, ¬(hasKey B.enterDocs id = true ∧ hasKey B.updateDocs id = true)) ∧
    (∀ id, ¬(hasKey B.updateDocs id = true ∧ hasKey B.exitDocs id = true)) ∧
    (∀ id, getKey (LiveQuery.processDocs docs incoming replace).1 id =
      if hasKey B.exitDocs id then none
      else ((getKey B.updateDocs id).or
        ((getKey B.enterDocs id).or (getKey docs id)))) ∧
    (B.enterDocs = [] → B.updateDocs = [] → B.exitDocs = [] →
      LiveQuery.processDocs docs incoming replace = (docs, [])) := by
  subst hB
  refine ⟨?_, ?_, ?_, ?_, ?_, ?_, ?_, ?_, ?_, ?_⟩
  · intro d hd
    rw [LiveQuery.computeBuckets_enter_mem docs incoming replace hi d hd]
    by_cases h1 : hasKey docs d._id = false
    · by_cases h2 : d._deleted = true
      · simp [h1, h2]
      · simp only [Bool.not_eq_true] at h2
        simp [h1, h2]
    · simp [h1]
  · intro d hd h1 h2
    refine ⟨?_, ?_, ?_, ?_⟩
    · rw [hasKey_eq_false_iff,
        LiveQuery.computeBuckets_enter_mem docs incoming replace hi d hd]
      simp [h1, h2]
    · rw [hasKey_eq_false_iff,
        LiveQuery.computeBuckets_update_mem docs incoming replace hi d hd]
      simp [h1]
    · cases hcon : hasKey (LiveQuery.computeBuckets docs incoming
        replace).exitDocs d._id
      · rfl
      · exfalso
        rcases (LiveQuery.computeBuckets_exit_iff docs incoming replace hm hi
          d._id).mp hcon with ⟨_, hk⟩ | ⟨_, hk, _⟩ <;>
          simp [h1] at hk
    · rw [hasKey_eq_false_iff,
        LiveQuery.computeBuckets_unchanged_mem docs incoming replace hi d hd]
      simp [h1]
  · intro d hd
    rw [LiveQuery.computeBuckets_update_iff docs incoming replace hi d._id,
      LiveQuery.exists_mem_id_iff incoming hi _ d hd]
  · intro d hd
    rw [LiveQuery.computeBuckets_unchanged_iff docs incoming replace hi d._id,
      LiveQuery.exists_mem_id_iff incoming hi _ d hd]
  · intro id
    exact LiveQuery.computeBuckets_exit_iff docs incoming replace hm hi id
  · rintro id ⟨hen, hex⟩
    obtain ⟨d, hd, rfl, hk, hdel⟩ :=
      (LiveQuery.computeBuckets_enter_iff docs incoming replace hi _).mp hen
    rcases (LiveQuery.computeBuckets_exit_iff docs incoming replace hm hi
      _).mp hex with ⟨_, hk'⟩ | ⟨_, hk', _⟩ <;>
      simp [hk] at hk'
  · rintro id ⟨hen, hup⟩
    obtain ⟨d, hd, rfl, hk, hdel⟩ :=
      (LiveQuery.computeBuckets_enter_iff docs incoming replace hi _).mp hen
    obtain ⟨d', hd', heq, e, hke, _⟩ :=
      (LiveQuery.computeBuckets_update_iff docs incoming replace hi _).mp hup
    rw [hasKey_eq_false_iff] at hk
    rw [hk] at hke
    cases hke
  · rintro id ⟨hup, hex⟩
    obtain ⟨d, hd, rfl, e, hke, hdel, hrev⟩ :=
      (LiveQuery.computeBuckets_update_iff docs incoming replace hi _).mp hup
    rcases (LiveQuery.computeBuckets_exit_iff docs incoming replace hm hi
      _).mp hex with ⟨⟨d', hd', heq, hdel'⟩, _⟩ | ⟨_, _, hupd, _⟩
    · rw [List.inj_on_of_nodup_map hi hd' hd heq] at hdel'
      rw [hdel'] at hdel
      cases hdel
    · rw [hup] at hupd
      cases hupd
  · intro id
    exact LiveQuery.processDocs_fst_getKey docs incoming replace id
  · intro he hu hx
    exact LiveQuery.processDocs_shortcircuit docs incoming replace he hu hx

/-- Witness for C1 at a concrete input: docs holding A and B, one incoming
update of A, replace set; the final docs record no longer has B. -/
theorem claim1_processDocs_partition_witness :
    (keysOf [("A", (⟨"A", "1-a", false, 0⟩ : Doc)),
      ("B", ⟨"B", "1-b", false, 0⟩)]).Nodup ∧
    getKey (LiveQuery.processDocs
      [("A", ⟨"A", "1-a", false, 0⟩), ("B", ⟨"B", "1-b", false, 0⟩)]
      [⟨"A", "2-a", false, 1⟩] true).1 "B" = none := by
  constructor
  · decide
  · have h := claim1_processDocs_partition
      [("A", ⟨"A", "1-a", false, 0⟩), ("B", ⟨"B", "1-b", false, 0⟩)]
      [⟨"A", "2-a", false, 1⟩] true (by decide) (by decide) _ rfl
    rw [h.2.2.2.2.2.2.2.2.1 "B"]
    decide

/-- C6: within a single processDocs invocation the dispatched events are
strictly ordered by kind: exit, then enter, then update, then afterchange (so
an enter event is never dispatched before an exit event of the same
invocation), each kind occurs at most once, and the single afterchange event
is dispatched last and carries the post-mutation docs record. -/
theorem claim6_event_dispatch_order (docs : Docs) (incoming : List Doc)
    (replace : Bool) :
    List.Pairwise (fun a b => a < b)
      ((LiveQuery.processDocs docs incoming replace).2.map Event.rank) ∧
    ((LiveQuery.processDocs docs incoming replace).2 ≠ [] →
      (LiveQuery.processDocs docs incoming replace).2.getLast? =
        some (Event.afterchange
          (LiveQuery.processDocs docs incoming replace).1)) := by
  rw [LiveQuery.processDocs_eq]
  by_cases h0 : (LiveQuery.computeBuckets docs incoming replace).enterCount = 0 ∧
      (LiveQuery.computeBuckets docs incoming replace).updateCount = 0 ∧
      (LiveQuery.computeBuckets docs incoming replace).exitCount = 0
  · rw [if_pos h0]
    exact ⟨by simp, by intro h; simp at h⟩
  · rw [if_neg h0]
    dsimp only
    constructor
    · split_ifs <;>
        simp only [List.map_append, List.map_cons, List.map_nil,
          List.cons_append, List.nil_append, List.append_nil, Event.rank] <;>
        decide
    · intro _
      rw [List.getLast?_concat]

/-- Witness for C6 at a concrete input: one entering document; the event list
is nonempty and ends with the afterchange event carrying the new docs. -/
theorem claim6_event_dispatch_order_witness :
    (LiveQuery.processDocs [] [⟨"A", "1-a", false, 0⟩] false).2 ≠ [] ∧
    (LiveQuery.processDocs [] [⟨"A", "1-a", false, 0⟩] false).2.getLast? =
      some (Event.afterchange
        (LiveQuery.processDocs [] [⟨"A", "1-a", false, 0⟩] false).1) :=
  ⟨by decide,
    (claim6_event_dispatch_order [] [⟨"A", "1-a", false, 0⟩] false).2
      (by decide)⟩

namespace CET

theorem getType_setType (m : List (String × List Nat)) (t : String)
    (v : List Nat) (i : String) :
    getType (setType m t v) i = if t = i then some v else getType m i := by
  induction m with
  | nil => simp [setType, getType]
  | cons hd tl ih =>
      obtain ⟨t', v'⟩ := hd
      by_cases ht : t' = t
      · subst ht
        by_cases hi : t' = i
        · subst hi; simp [setType, getType]
        · simp [setType, getType, hi]
      · by_cases hi : t' = i
        · subst hi
          have hti : t ≠ t' := fun h => ht h.symm
          simp [setType, getType, ht, hti]
        · simp [setType, getType, ht, hi, ih]

theorem getType_delType (m : List (String × List Nat)) (t : String)
    (i : String) :
    getType (delType m t) i = if t = i then none else getType m i := by
  induction m with
  | nil => simp [delType, getType]
  | cons hd tl ih =>
      obtain ⟨t', v'⟩ := hd
      by_cases ht : t' = t
      · subst ht
        by_cases hi : t' = i
        · subst hi; simp [delType, ih]
        · simp [delType, getType, ih, hi]
      · by_cases hi : t' = i
        · subst hi
          have hti : t ≠ t' := fun h => ht h.symm
          simp [delType, getType, ht, hti]
        · simp [delType, getType, ht, hi, ih]

theorem delType_not_mem (m : List (String × List Nat)) (t : String)
    (h : t ∉ m.map Prod.fst) : delType m t = m := by
  induction m with
  | nil => rfl
  | cons hd tl ih =>
      obtain ⟨t', v'⟩ := hd
      simp only [List.map_cons, List.mem_cons] at h
      push_neg at h
      have hne : t' ≠ t := fun he => h.1 he.symm
      simp [delType, hne, ih h.2]

theorem delType_setType_self (m : List (String × List Nat)) (t : String)
    (v : List Nat) : delType (setType m t v) t = delType m t := by
  induction m with
  | nil => simp [setType, delType]
  | cons hd tl ih =>
      obtain ⟨t', v'⟩ := hd
      by_cases ht : t' = t
      · subst ht
        simp [setType, delType]
      · simp [setType, delType, ht, ih]

theorem filter_bne_self (tl : List Nat) (cb : Nat) (h : cb ∉ tl) :
    tl.filter (fun x => x != cb) = tl := by
  apply List.filter_eq_self.mpr
  intro x hx
  have : x ≠ cb := fun he => h (he ▸ hx)
  simpa using this

theorem removeCore_closed (t : Target) (ty : String) (cb : Nat) :
    (removeCore t ty cb).closed = t.closed := by
  unfold removeCore
  cases getType t.listeners ty <;> simp <;> split_ifs <;> rfl

theorem removeSeq (ls : List Nat) (ty : String) (acc : Target)
    (hget : getType acc.listeners ty = some ls) (hnd : ls.Nodup)
    (hne : ls ≠ []) :
    (ls.foldl (fun a cb => removeCore a ty cb) acc).listeners =
      delType acc.listeners ty ∧
    (ls.foldl (fun a cb => removeCore a ty cb) acc).closed = acc.closed := by
  induction ls generalizing acc with
  | nil => exact absurd rfl hne
  | cons cb tl ih =>
      simp only [List.nodup_cons] at hnd
      have hfilter : (cb :: tl).filter (fun x => x != cb) = tl := by
        simp [List.filter, filter_bne_self tl cb hnd.1]
      have hstep : removeCore acc ty cb =
          (if tl = [] then { acc with listeners := delType acc.listeners ty }
           else { acc with listeners := setType acc.listeners ty tl }) := by
        unfold removeCore
        rw [hget]
        simp [hfilter]
      by_cases htl : tl = []
      · subst htl
        rw [List.foldl_cons, hstep, if_pos rfl]
        exact ⟨rfl, rfl⟩
      · rw [List.foldl_cons, hstep, if_neg htl]
        have hget' : getType (setType acc.listeners ty tl) ty = some tl := by
          rw [getType_setType, if_pos rfl]
        obtain ⟨h1, h2⟩ := ih { acc with listeners := setType acc.listeners ty tl }
          hget' hnd.2 htl
        refine ⟨?_, h2⟩
        rw [h1]
        exact delType_setType_self acc.listeners ty tl

theorem removeAll_fold (es : List (String × List Nat)) (acc : Target)
    (hl : acc.listeners = es) (hk : (es.map Prod.fst).Nodup)
    (hs : ∀ e ∈ es, e.2 ≠ [] ∧ e.2.Nodup) :
    (es.foldl (fun a entry => entry.2.foldl
        (fun a' cb => removeCore a' entry.1 cb) a) acc).listeners = [] ∧
    (es.foldl (fun a entry => entry.2.foldl
        (fun a' cb => removeCore a' entry.1 cb) a) acc).closed = acc.closed := by
  induction es generalizing acc with
  | nil => exact ⟨hl, rfl⟩
  | cons hd tl ih =>
      obtain ⟨ty, ls⟩ := hd
      simp only [List.map_cons, List.nodup_cons] at hk
      have hget : getType acc.listeners ty = some ls := by
        rw [hl]; simp [getType]
      have hsp := hs (ty, ls) (List.mem_cons_self _ _)
      obtain ⟨h1, h2⟩ := removeSeq ls ty acc hget hsp.2 hsp.1
      have hl' : (ls.foldl (fun a cb => removeCore a ty cb) acc).listeners = tl := by
        rw [h1, hl]
        rw [show delType ((ty, ls) :: tl) ty = delType tl ty by simp [delType]]
        exact delType_not_mem tl ty hk.1
      obtain ⟨g1, g2⟩ := ih _ hl' hk.2
        (fun e he => hs e (List.mem_cons_of_mem _ he))
      exact ⟨g1, g2.trans h2⟩

theorem removeAllEventListeners_spec (t : Target) (hwf : WF t) :
    (removeAllEventListeners t).listeners = [] ∧
    (removeAllEventListeners t).closed = t.closed :=
  removeAll_fold t.listeners t rfl hwf.1 hwf.2

theorem removeCore_self_fix (t : Target) (ty : String) (cb : Nat) :
    removeCore (removeCore t ty cb) ty cb = removeCore t ty cb := by
  cases hg : getType t.listeners ty with
  | none =>
      have h1 : removeCore t ty cb = t := by
        unfold removeCore
        rw [hg]
      rw [h1]
      exact h1
  | some ls =>
      by_cases hmem : cb ∈ ls
      · by_cases hf : ls.filter (fun x => x != cb) = []
        · have h1 : removeCore t ty cb =
              { t with listeners := delType t.listeners ty } := by
            unfold removeCore
            rw [hg]
            simp [hmem, hf]
          have hg2 : getType (delType t.listeners ty) ty = none := by
            rw [getType_delType, if_pos rfl]
          rw [h1]
          unfold removeCore
          simp [hg2]
        · have h1 : removeCore t ty cb =
              { t with listeners :=
                setType t.listeners ty (ls.filter (fun x => x != cb)) } := by
            unfold removeCore
            rw [hg]
            simp [hmem, hf]
          have hg2 : getType (setType t.listeners ty
              (ls.filter (fun x => x != cb))) ty =
              some (ls.filter (fun x => x != cb)) := by
            rw [getType_setType, if_pos rfl]
          have hnm : cb ∉ ls.filter (fun x => x != cb) := by
            intro hmem'
            have h2 := List.of_mem_filter hmem'
            simp at h2
          rw [h1]
          unfold removeCore
          simp [hg2, hnm]
      · have h1 : removeCore t ty cb = t := by
          unfold removeCore
          rw [hg]
          simp [hmem]
        rw [h1]
        exact h1

end CET

/-- C7 counterexample: on a concrete target holding one change listener and
then closed, a dispatch call does not fail — it returns successfully, with no
recipients — even though the target is closed. This refutes the conjunct of
the claim that dispatch calls fail once the target is closed (the inherited
dispatchEvent has no closed check and no failure path). -/
theorem claim7_counterexample :
    (CET.close ⟨false, [("change", [1])]⟩).1.closed = true ∧
    CET.dispatchEvent (CET.close ⟨false, [("change", [1])]⟩).1 "change" =
      Except.ok [] := ⟨rfl, rfl⟩

/-- C7 amended: close is idempotent; the first call dispatches one final
close notification to exactly the listeners registered for the close type,
removes every registered listener across all event types, and marks the
target permanently closed; afterwards every addEventListener call fails with
the closed error and a dispatch of any type reaches no listener — the
dispatch call itself, however, succeeds rather than failing, because the
inherited dispatchEvent performs no closed check. -/
theorem claim7_close_contract (t : CET.Target) (hwf : CET.WF t)
    (hopen : t.closed = false) :
    (CET.close t).2 = (CET.getType t.listeners "close").getD [] ∧
    (CET.close t).1.closed = true ∧
    (CET.close t).1.listeners = [] ∧
    CET.close (CET.close t).1 = ((CET.close t).1, []) ∧
    (∀ ty cb, CET.addEventListener (CET.close t).1 ty cb =
      Except.error "Event target is closed.") ∧
    (∀ ty, CET.dispatchEvent (CET.close t).1 ty = Except.ok []) := by
  have hra := CET.removeAllEventListeners_spec t hwf
  have hclose : CET.close t =
      ({ CET.removeAllEventListeners t with closed := true },
        (CET.getType t.listeners "close").getD []) := by
    unfold CET.close
    rw [if_pos hopen]
  refine ⟨by rw [hclose], by rw [hclose], by rw [hclose]; exact hra.1,
    ?_, ?_, ?_⟩
  · rw [hclose]
    unfold CET.close
    simp
  · intro ty cb
    rw [hclose]
    unfold CET.addEventListener
    simp
  · intro ty
    rw [hclose]
    unfold CET.dispatchEvent
    simp only [hra.1]
    rfl

/-- Witness for C7 at a concrete input: a target with one close listener and
two change listeners; closing notifies the close listener and leaves an empty
listeners map. -/
theorem claim7_close_contract_witness :
    (CET.close ⟨false, [("close", [7]), ("change", [1, 2])]⟩).2 = [7] ∧
    (CET.close ⟨false, [("close", [7]), ("change", [1, 2])]⟩).1.listeners =
      [] := by
  have hwf : CET.WF ⟨false, [("close", [7]), ("change", [1, 2])]⟩ :=
    ⟨by decide, by decide⟩
  have h := claim7_close_contract _ hwf rfl
  exact ⟨by rw [h.1]; rfl, h.2.2.1⟩

/-- C9 counterexample: register a listener, close the target, then call the
returned unsubscribe (removeEventListener with the registered type and
callback): it throws the closed error, refuting the claim that a call to the
unsubscribe callback at any later point in the target's lifetime has no
effect and does not throw. -/
theorem claim9_counterexample :
    CET.removeEventListener (CET.close ⟨false, [("change", [1])]⟩).1
      "change" 1 = Except.error "Event target is closed." := rfl

/-- C9 amended: registering the identical callback a second time for the same
event type fails with the duplicate-listener error; the returned unsubscribe
(removeEventListener with the same type and callback) is idempotent-safe
while the target remains open — a second call is a no-op and does not throw —
but once the target has been closed, any call to it fails with the closed
error. HeartDB.onChange delegates directly to this addEventListener. -/
theorem claim9_listener_registration :
    (∀ (t : CET.Target) (ty : String) (cb : Nat) (t' : CET.Target),
      CET.addEventListener t ty cb = Except.ok t' →
      CET.addEventListener t' ty cb =
        Except.error "Listener already added.") ∧
    (∀ (t : CET.Target) (ty : String) (cb : Nat) (t' : CET.Target),
      t.closed = false →
      CET.removeEventListener t ty cb = Except.ok t' →
      CET.removeEventListener t' ty cb = Except.ok t') ∧
    (∀ (t : CET.Target) (ty : String) (cb : Nat), t.closed = true →
      CET.removeEventListener t ty cb =
        Except.error "Event target is closed.") := by
  refine ⟨?_, ?_, ?_⟩
  · intro t ty cb t' h
    unfold CET.addEventListener at h
    by_cases hc : t.closed
    · rw [if_pos hc] at h
      cases h
    · rw [if_neg hc] at h
      cases hg : CET.getType t.listeners ty with
      | none =>
          simp only [hg] at h
          injection h with h
          subst h
          unfold CET.addEventListener
          rw [if_neg hc,
            show CET.getType (CET.setType t.listeners ty [cb]) ty =
              some [cb] by rw [CET.getType_setType, if_pos rfl]]
          simp
      | some ls =>
          simp only [hg] at h
          by_cases hmem : cb ∈ ls
          · rw [if_pos hmem] at h
            cases h
          · rw [if_neg hmem] at h
            injection h with h
            subst h
            unfold CET.addEventListener
            rw [if_neg hc,
              show CET.getType (CET.setType t.listeners ty (ls ++ [cb])) ty =
                some (ls ++ [cb]) by rw [CET.getType_setType, if_pos rfl]]
            simp
  · intro t ty cb t' hopen h
    have ht' : t' = CET.removeCore t ty cb := by
      unfold CET.removeEventListener at h
      rw [hopen] at h
      simp at h
      exact h.symm
    have hcl : t'.closed = false := by
      rw [ht', CET.removeCore_closed]
      exact hopen
    unfold CET.removeEventListener
    rw [hcl]
    simp
    rw [ht']
    exact CET.removeCore_self_fix t ty cb
  · intro t ty cb h
    unfold CET.removeEventListener
    rw [h]
    simp

/-- Witness for C9 at concrete inputs: a fresh target accepts a listener,
rejects the duplicate, and the unsubscribe is a no-op the second time while
the target is open. -/
theorem claim9_listener_registration_witness :
    CET.addEventListener ⟨false, []⟩ "change" 1 =
      Except.ok ⟨false, [("change", [1])]⟩ ∧
    CET.addEventListener ⟨false, [("change", [1])]⟩ "change" 1 =
      Except.error "Listener already added." ∧
    CET.removeEventListener ⟨false, [("change", [1])]⟩ "change" 1 =
      Except.ok ⟨false, []⟩ ∧
    CET.removeEventListener ⟨false, []⟩ "change" 1 =
      Except.ok ⟨false, []⟩ := by
  refine ⟨rfl, ?_, rfl, ?_⟩
  · exact claim9_listener_registration.1 ⟨false, []⟩ "change" 1 _ rfl
  · exact claim9_listener_registration.2.1 ⟨false, [("change", [1])]⟩
      "change" 1 ⟨false, []⟩ rfl rfl

theorem foldl_setKey_nodup (m : Docs) (d0 : Docs)
    (h : (keysOf d0).Nodup) :
    (keysOf (m.foldl (fun d kv => setKey d kv.1 kv.2) d0)).Nodup := by
  induction m generalizing d0 with
  | nil => exact h
  | cons hd tl ih =>
      rw [List.foldl_cons]
      exact ih _ (nodup_keys_setKey d0 hd.1 hd.2 h)

theorem foldl_delKey_nodup (m : Docs) (d0 : Docs)
    (h : (keysOf d0).Nodup) :
    (keysOf (m.foldl (fun d kv => delKey d kv.1) d0)).Nodup := by
  induction m generalizing d0 with
  | nil => exact h
  | cons hd tl ih =>
      rw [List.foldl_cons]
      exact ih _ (nodup_keys_delKey d0 hd.1 h)

theorem processDocs_nodup (docs : Docs) (incoming : List Doc) (replace : Bool)
    (h : (keysOf docs).Nodup) :
    (keysOf (LiveQuery.processDocs docs incoming replace).1).Nodup := by
  rw [LiveQuery.processDocs_eq]
  by_cases h0 : (LiveQuery.computeBuckets docs incoming replace).enterCount = 0 ∧
      (LiveQuery.computeBuckets docs incoming replace).updateCount = 0 ∧
      (LiveQuery.computeBuckets docs incoming replace).exitCount = 0
  · rw [if_pos h0]
    exact h
  · rw [if_neg h0]
    show (keysOf (LiveQuery.mutatedDocs docs incoming replace)).Nodup
    unfold LiveQuery.mutatedDocs
    exact foldl_delKey_nodup _ _
      (foldl_setKey_nodup _ _ (foldl_setKey_nodup _ _ h))

theorem find?_id_of_mem (l : List Doc) (hi : (l.map Doc._id).Nodup) (d : Doc)
    (hd : d ∈ l) : l.find? (fun x => x._id == d._id) = some d := by
  induction l with
  | nil => simp at hd
  | cons h t ih =>
      simp only [List.map_cons, List.nodup_cons] at hi
      rcases List.mem_cons.mp hd with hh | ht
      · subst hh
        simp [List.find?]
      · have hne : h._id ≠ d._id := by
          intro he
          exact hi.1 (he ▸ List.mem_map_of_mem Doc._id ht)
        rw [List.find?_cons_of_neg _ (by simp [hne])]
        exact ih hi.2 ht

theorem find?_id_of_not_mem (l : List Doc) (id : String)
    (hid : id ∉ l.map Doc._id) : l.find? (fun x => x._id == id) = none := by
  rw [List.find?_eq_none]
  intro x hx
  simp only [beq_iff_eq]
  intro he
  exact hid (he ▸ List.mem_map_of_mem Doc._id hx)

/-- Merge of a page of fresh, non-deleted documents with replace semantics:
the resulting docs record is exactly the incoming page (stale entries are
exited, survivors are reconciled by revision). The rev hypothesis is the
database guarantee that equal id and revision means the same document. -/
theorem processDocs_replace_fresh (docs0 : Docs) (incoming : List Doc)
    (hm : (keysOf docs0).Nodup) (hi : (incoming.map Doc._id).Nodup)
    (hnodel : ∀ d ∈ incoming, d._deleted = false)
    (hrev : ∀ p ∈ docs0, ∀ d ∈ incoming, p.1 = d._id → p.2._rev = d._rev →
      p.2 = d) :
    ∀ id, getKey (LiveQuery.processDocs docs0 incoming true).1 id =
      incoming.find? (fun x => x._id == id) := by
  intro id
  rw [LiveQuery.processDocs_fst_getKey]
  have hnodelex : ∀ id', ¬((∃ d ∈ incoming, d._id = id' ∧ d._deleted = true) ∧
      hasKey docs0 id' = true) := by
    rintro id' ⟨⟨d, hd, _, hdel⟩, _⟩
    rw [hnodel d hd] at hdel
    cases hdel
  by_cases hin : id ∈ incoming.map Doc._id
  · obtain ⟨d, hd, rfl⟩ := List.mem_map.mp hin
    rw [find?_id_of_mem incoming hi d hd]
    have henter := LiveQuery.computeBuckets_enter_mem docs0 incoming true hi d hd
    have hupd := LiveQuery.computeBuckets_update_mem docs0 incoming true hi d hd
    cases hg : getKey docs0 d._id with
    | none =>
        have hkf : hasKey docs0 d._id = false := by
          rw [hasKey_eq_false_iff]; exact hg
        rw [hkf] at henter hupd
        rw [hnodel d hd] at henter
        simp only [if_pos rfl, Bool.false_eq_true, if_false] at henter hupd
        have hex : hasKey (LiveQuery.computeBuckets docs0 incoming true).exitDocs
            d._id = false := by
          cases hx : hasKey (LiveQuery.computeBuckets docs0 incoming
            true).exitDocs d._id
          · rfl
          · exfalso
            rcases (LiveQuery.computeBuckets_exit_iff docs0 incoming true hm hi
              d._id).mp hx with h | ⟨_, hk, _⟩
            · exact hnodelex d._id h
            · rw [hkf] at hk; cases hk
        rw [hex, hupd, henter]
        simp
    | some e =>
        have hkt : hasKey docs0 d._id = true := by
          rw [hasKey_iff]; exact ⟨e, hg⟩
        rw [hkt] at henter hupd
        rw [hnodel d hd, hg] at hupd
        simp only [Bool.true_eq_false, if_false, Bool.false_eq_true,
          Option.getD_some] at henter hupd
        by_cases hr : d._rev = e._rev
        · have hupd0 : getKey (LiveQuery.computeBuckets docs0 incoming
              true).updateDocs d._id = none := by
            rw [hupd, if_neg (by simp [hr])]
          have hunch : hasKey (LiveQuery.computeBuckets docs0 incoming
              true).unchangedDocs d._id = true := by
            rw [LiveQuery.computeBuckets_unchanged_iff docs0 incoming true hi]
            exact ⟨d, hd, rfl, e, hg, hnodel d hd, hr⟩
          have hex : hasKey (LiveQuery.computeBuckets docs0 incoming
              true).exitDocs d._id = false := by
            cases hx : hasKey (LiveQuery.computeBuckets docs0 incoming
              true).exitDocs d._id
            · rfl
            · exfalso
              rcases (LiveQuery.computeBuckets_exit_iff docs0 incoming true hm
                hi d._id).mp hx with h | ⟨_, _, _, hn⟩
              · exact hnodelex d._id h
              · rw [hunch] at hn; cases hn
          rw [hex, hupd0, henter]
          have hed : e = d := hrev (d._id, e)
            (getKey_eq_some_mem docs0 d._id e hg) d hd rfl (hr.symm)
          simp [hed]
        · have hupd1 : getKey (LiveQuery.computeBuckets docs0 incoming
              true).updateDocs d._id = some d := by
            rw [hupd, if_pos (by simp [hr])]
          have hex : hasKey (LiveQuery.computeBuckets docs0 incoming
              true).exitDocs d._id = false := by
            cases hx : hasKey (LiveQuery.computeBuckets docs0 incoming
              true).exitDocs d._id
            · rfl
            · exfalso
              rcases (LiveQuery.computeBuckets_exit_iff docs0 incoming true hm
                hi d._id).mp hx with h | ⟨_, _, hu, _⟩
              · exact hnodelex d._id h
              · rw [show hasKey (LiveQuery.computeBuckets docs0 incoming
                  true).updateDocs d._id = true by
                    rw [hasKey_iff]; exact ⟨d, hupd1⟩] at hu
                cases hu
          rw [hex, hupd1]
          simp
  · rw [find?_id_of_not_mem incoming id hin]
    have henter := LiveQuery.computeBuckets_enter_notmem docs0 incoming true
      id hin
    have hupd := LiveQuery.computeBuckets_update_notmem docs0 incoming true
      id hin
    have hupdk : hasKey (LiveQuery.computeBuckets docs0 incoming
        true).updateDocs id = false := by
      rw [hasKey_eq_false_iff]; exact hupd
    have hunchk : hasKey (LiveQuery.computeBuckets docs0 incoming
        true).unchangedDocs id = false := by
      rw [hasKey_eq_false_iff]
      exact LiveQuery.computeBuckets_unchanged_notmem docs0 incoming true id hin
    by_cases hk : hasKey docs0 id = true
    · have hex : hasKey (LiveQuery.computeBuckets docs0 incoming
          true).exitDocs id = true := by
        rw [LiveQuery.computeBuckets_exit_iff docs0 incoming true hm hi]
        exact Or.inr ⟨rfl, hk, hupdk, hunchk⟩
      rw [hex]
      simp
    · have hex : hasKey (LiveQuery.computeBuckets docs0 incoming
          true).exitDocs id = false := by
        cases hx : hasKey (LiveQuery.computeBuckets docs0 incoming
          true).exitDocs id
        · rfl
        · exfalso
          rcases (LiveQuery.computeBuckets_exit_iff docs0 incoming true hm hi
            id).mp hx with ⟨_, hk'⟩ | ⟨_, hk', _⟩ <;> exact hk (by rw [hk'])
      rw [hex, hupd, henter]
      rw [Bool.not_eq_true, hasKey_eq_false_iff] at hk
      simp [hk]

/-- Incremental merge of a page of fresh, non-deleted documents (replace
unset): the resulting docs record is the old one extended with the page. -/
theorem processDocs_incremental (docs0 : Docs) (incoming : List Doc)
    (hm : (keysOf docs0).Nodup) (hi : (incoming.map Doc._id).Nodup)
    (hnodel : ∀ d ∈ incoming, d._deleted = false)
    (hdisj : ∀ d ∈ incoming, hasKey docs0 d._id = false) :
    ∀ id, getKey (LiveQuery.processDocs docs0 incoming false).1 id =
      (incoming.find? (fun x => x._id == id)).or (getKey docs0 id) := by
  intro id
  rw [LiveQuery.processDocs_fst_getKey]
  have hex : hasKey (LiveQuery.computeBuckets docs0 incoming false).exitDocs
      id = false := by
    cases hx : hasKey (LiveQuery.computeBuckets docs0 incoming
      false).exitDocs id
    · rfl
    · exfalso
      rcases (LiveQuery.computeBuckets_exit_iff docs0 incoming false hm hi
        id).mp hx with ⟨⟨d, hd, _, hdel⟩, _⟩ | ⟨hrep, _⟩
      · rw [hnodel d hd] at hdel; cases hdel
      · cases hrep
  rw [hex]
  by_cases hin : id ∈ incoming.map Doc._id
  · obtain ⟨d, hd, rfl⟩ := List.mem_map.mp hin
    rw [find?_id_of_mem incoming hi d hd]
    have henter := LiveQuery.computeBuckets_enter_mem docs0 incoming false hi
      d hd
    have hupd := LiveQuery.computeBuckets_update_mem docs0 incoming false hi
      d hd
    rw [hdisj d hd, hnodel d hd] at henter hupd
    simp only [if_pos rfl, Bool.false_eq_true, if_false] at henter hupd
    rw [hupd, henter]
    simp
  · rw [find?_id_of_not_mem incoming id hin,
      LiveQuery.computeBuckets_enter_notmem docs0 incoming false id hin,
      LiveQuery.computeBuckets_update_notmem docs0 incoming false id hin]
    simp

theorem take_min_length {α : Type} (l : List α) (n : Nat) :
    l.take (min n l.length) = l.take n := by
  by_cases h : n ≤ l.length
  · rw [min_eq_left h]
  · push_neg at h
    rw [min_eq_right (le_of_lt h), List.take_length,
      List.take_of_length_le (le_of_lt h)]

theorem div_count_step (N r : Nat) (hN : 1 ≤ N) (hr : 1 ≤ r) :
    (r + N - 1) / N = 1 + (r - min N r + N - 1) / N := by
  by_cases h : r ≤ N
  · rw [min_eq_right h, Nat.sub_self]
    have h1 : (0 + N - 1) / N = 0 := Nat.div_eq_of_lt (by omega)
    have h2 : (r + N - 1) / N = 1 := Nat.div_eq_of_lt_le (by omega) (by omega)
    omega
  · push_neg at h
    rw [min_eq_left (le_of_lt h)]
    have h2 : r - N + N - 1 = r - 1 := by omega
    have h3 : r + N - 1 = (r - 1) + N := by omega
    rw [h2, h3, Nat.add_div_right _ (by omega : 0 < N)]
    omega

theorem take_drop_id_disjoint (server : List Doc) (skip : Nat)
    (hserver : (server.map Doc._id).Nodup) (x : String)
    (h1 : x ∈ (server.take skip).map Doc._id)
    (h2 : x ∈ (server.drop skip).map Doc._id) : False := by
  have hsplit : ((server.take skip).map Doc._id ++
      (server.drop skip).map Doc._id).Nodup := by
    rw [← List.map_append, List.take_append_drop]
    exact hserver
  exact (List.nodup_append.mp hsplit).2.2 h1 h2

theorem runFind_none_length (server : List Doc) (N skip : Nat) :
    (runFind server N none skip).length = min N (server.length - skip) := by
  simp [runFind, List.length_take, List.length_drop]

theorem pagingLoopF_incr (server : List Doc) (N : Nat) (hN : 1 ≤ N)
    (hserver : (server.map Doc._id).Nodup)
    (hnodel : ∀ d ∈ server, d._deleted = false) :
    ∀ (fuel : Nat), ∀ (skip rc : Nat) (docs : Docs), 1 ≤ rc →
    skip ≤ server.length → server.length + 1 - skip ≤ fuel →
    (keysOf docs).Nodup →
    (∀ id, getKey docs id =
      (server.take skip).find? (fun x => x._id == id)) →
    (∀ id, getKey
        (LiveQuery.pagingLoopF server N none fuel docs skip rc).1 id =
      server.find? (fun x => x._id == id)) ∧
    (LiveQuery.pagingLoopF server N none fuel docs skip rc).2.2 =
      rc + (server.length - skip + N - 1) / N + 1 := by
  intro fuel
  induction fuel with
  | zero =>
      intro skip rc docs hrc hskip hfuel hnodup hinv
      omega
  | succ fuel ih =>
      intro skip rc docs hrc hskip hfuel hnodup hinv
      have hflag : decide (rc + 1 = 1) = false :=
        decide_eq_false (by omega)
      have hlen := runFind_none_length server N skip
      simp only [LiveQuery.pagingLoopF]
      rw [hflag]
      by_cases hsl : skip < server.length
      · have hpos : 0 < (runFind server N none skip).length := by
          rw [hlen]; omega
        have hne : runFind server N none skip ≠ [] := by
          intro h
          rw [h] at hpos
          simp at hpos
        rw [show ((runFind server N none skip).isEmpty ||
            shortPage none (runFind server N none skip).length) = false by
          simp [List.isEmpty_iff, shortPage, hne]]
        simp only [Bool.false_eq_true, if_false]
        have hsubl : (runFind server N none skip).Sublist server :=
          (List.take_sublist _ _).trans (List.drop_sublist _ _)
        have hpagenodup : ((runFind server N none skip).map Doc._id).Nodup :=
          List.Nodup.sublist (hsubl.map Doc._id) hserver
        have hpagenodel : ∀ d ∈ runFind server N none skip,
            d._deleted = false := fun d hd => hnodel d (hsubl.subset hd)
        have hdisj : ∀ d ∈ runFind server N none skip,
            hasKey docs d._id = false := by
          intro d hd
          rw [hasKey_eq_false_iff, hinv]
          apply find?_id_of_not_mem
          intro hmem
          exact take_drop_id_disjoint server skip hserver d._id hmem
            (List.mem_map_of_mem Doc._id
              ((List.take_sublist _ _).subset hd))
        have hmerge := processDocs_incremental docs
          (runFind server N none skip) hnodup hpagenodup hpagenodel hdisj
        have hpage_take : (server.drop skip).take
            (runFind server N none skip).length = runFind server N none skip := by
          rw [hlen, show server.length - skip = (server.drop skip).length by
            rw [List.length_drop]]
          exact take_min_length (server.drop skip) N
        have hinv' : ∀ id, getKey (LiveQuery.processDocs docs
            (runFind server N none skip) false).1 id =
            (server.take (skip + (runFind server N none skip).length)).find?
              (fun x => x._id == id) := by
          intro id
          rw [hmerge id, List.take_add, hpage_take, List.find?_append]
          by_cases hidt : id ∈ (server.take skip).map Doc._id
          · have hidp : (runFind server N none skip).find?
                (fun x => x._id == id) = none := by
              apply find?_id_of_not_mem
              intro hmem
              exact take_drop_id_disjoint server skip hserver id hidt
                (by
                  obtain ⟨d, hd, rfl⟩ := List.mem_map.mp hmem
                  exact List.mem_map_of_mem Doc._id
                    ((List.take_sublist _ _).subset hd))
            rw [hidp, hinv id]
            cases hft : (server.take skip).find? (fun x => x._id == id) <;>
              rfl
          · have hidt' : (server.take skip).find?
                (fun x => x._id == id) = none :=
              find?_id_of_not_mem _ id hidt
            rw [hidt', hinv id, hidt']
            cases hfp : (runFind server N none skip).find?
              (fun x => x._id == id) <;> rfl

        have hrec := ih (skip + (runFind server N none skip).length) (rc + 1)
          (LiveQuery.processDocs docs (runFind server N none skip) false).1
          (by omega)
          (by rw [hlen]; omega)
          (by rw [hlen]; omega)
          (processDocs_nodup docs _ false hnodup)
          hinv'
        refine ⟨hrec.1, ?_⟩
        rw [hrec.2]
        have hdiv := div_count_step N (server.length - skip) hN (by omega)
        rw [hlen]
        rw [show server.length - (skip + min N (server.length - skip)) =
          server.length - skip - min N (server.length - skip) by omega]
        omega
      · have hse : skip = server.length := by omega
        have hpe : runFind server N none skip = [] := by
          rw [hse]
          simp [runFind]
        rw [hpe]
        rw [show (List.isEmpty ([] : List Doc) ||
            shortPage none (List.length ([] : List Doc))) = true by rfl]
        simp only [if_true]
        have hpd : LiveQuery.processDocs docs [] false = (docs, []) :=
          LiveQuery.processDocs_shortcircuit docs [] false rfl rfl rfl
        rw [hpd]
        constructor
        · intro id
          rw [hinv id, hse, List.take_length]
        · rw [hse]
          have h1 : (server.length - server.length + N - 1) / N = 0 :=
            Nat.div_eq_of_lt (by omega)
          omega

/-- C3 counterexample: a data source with exactly one matching document and a
server page limit of 25, query with no explicit limit: the resolution
performs 2 find calls while ceil(1/25) = 1. The loop cannot stop after a
short page because the short-page exit requires a truthy explicit
query.limit, so a final empty-page request is always issued. -/
theorem claim3_counterexample :
    (LiveQuery.resolveQuery [⟨"A", "1-a", false, 0⟩] 25
      ⟨0, none, none⟩ []).2.2 = 2 ∧
    (1 + 25 - 1) / 25 = 1 ∧ (2 : Nat) ≠ 1 := by
  refine ⟨rfl, rfl, by decide⟩

/-- C3 amended: for a data source enforcing a page limit of N and a query
with no explicit limit or skip whose matching documents are `server`
(M = server.length, any M), a full unpreempted resolution leaves docs holding
exactly the matching documents, and performs exactly ceil(M/N) + 1 find
calls: ceil(M/N) page-bearing requests plus the final request that returns
the empty page and terminates the loop. -/
theorem claim3_pagination_complete (server : List Doc) (N : Nat) (tok : Nat)
    (hN : 1 ≤ N) (hserver : (server.map Doc._id).Nodup)
    (hnodel : ∀ d ∈ server, d._deleted = false) :
    (∀ id, getKey
        (LiveQuery.resolveQuery server N ⟨tok, none, none⟩ []).1 id =
      server.find? (fun x => x._id == id)) ∧
    (LiveQuery.resolveQuery server N ⟨tok, none, none⟩ []).2.2 =
      (server.length + N - 1) / N + 1 := by
  have hlen : (runFind server N none 0).length = min N server.length := by
    rw [runFind_none_length]
    omega
  simp only [LiveQuery.resolveQuery, LiveQuery.pagingLoopF, Option.getD_none]
  rw [show decide True = true from rfl]
  by_cases hL : server.length = 0
  · have hserv : server = [] := List.length_eq_zero.mp hL
    subst hserv
    rw [show runFind ([] : List Doc) N none 0 = [] by simp [runFind]]
    rw [show (List.isEmpty ([] : List Doc) ||
        shortPage none (List.length ([] : List Doc))) = true from rfl]
    simp only [if_true]
    refine ⟨fun id => rfl, ?_⟩
    have h1 : (List.length ([] : List Doc) + N - 1) / N = 0 :=
      Nat.div_eq_of_lt (by simp; omega)
    omega
  · have hpos : 0 < (runFind server N none 0).length := by
      rw [hlen]; omega
    have hne : runFind server N none 0 ≠ [] := by
      intro h
      rw [h] at hpos
      simp at hpos
    rw [show ((runFind server N none 0).isEmpty ||
        shortPage none (runFind server N none 0).length) = false by
      simp [List.isEmpty_iff, shortPage, hne]]
    simp only [Bool.false_eq_true, if_false]
    have hsubl : (runFind server N none 0).Sublist server :=
      (List.take_sublist _ _).trans (List.drop_sublist _ _)
    have hpagenodup : ((runFind server N none 0).map Doc._id).Nodup :=
      List.Nodup.sublist (hsubl.map Doc._id) hserver
    have hpagenodel : ∀ d ∈ runFind server N none 0, d._deleted = false :=
      fun d hd => hnodel d (hsubl.subset hd)
    have hmerge := processDocs_replace_fresh [] (runFind server N none 0)
      (by simp [keysOf]) hpagenodup hpagenodel (by intro p hp; simp at hp)
    have hpage_take : server.take (runFind server N none 0).length =
        runFind server N none 0 := by
      rw [hlen, take_min_length server N]
      simp [runFind]
    have hinv : ∀ id, getKey (LiveQuery.processDocs []
        (runFind server N none 0) true).1 id =
        (server.take (0 + (runFind server N none 0).length)).find?
          (fun x => x._id == id) := by
      intro id
      rw [hmerge id, Nat.zero_add, hpage_take]
    have hrec := pagingLoopF_incr server N hN hserver hnodel server.length
      (0 + (runFind server N none 0).length) 1
      (LiveQuery.processDocs [] (runFind server N none 0) true).1
      (by omega)
      (by rw [hlen]; omega)
      (by rw [hlen]; omega)
      (processDocs_nodup [] _ true (by simp [keysOf]))
      hinv
    refine ⟨hrec.1, ?_⟩
    rw [hrec.2]
    have hdiv := div_count_step N server.length hN (by omega)
    rw [hlen]
    rw [show server.length - (0 + min N server.length) =
      server.length - min N server.length by omega]
    omega

/-- Witness for the C3 amended theorem: two matching documents, page size 1 —
the loop performs ceil(2/1) + 1 = 3 find calls. -/
theorem claim3_pagination_complete_witness :
    (LiveQuery.resolveQuery
      [⟨"A", "1-a", false, 0⟩, ⟨"B", "1-b", false, 0⟩] 1
      ⟨0, none, none⟩ []).2.2 = 3 := by
  have h := claim3_pagination_complete
    [⟨"A", "1-a", false, 0⟩, ⟨"B", "1-b", false, 0⟩] 1 0 (by decide)
    (by decide) (by decide)
  rw [h.2]
  decide

/-- C4: evaluation of the change listener at the failing input — a change for
an id never present in docs, not deleted, whose id-narrowed point query
returns zero documents. The zero-result branch has no membership guard: the
listener dispatches an exit event (whose payload carries the literal "id"
property) and an afterchange event instead of ignoring the change; docs
itself is unchanged only because deleting an absent key is a no-op. The
second conjunct shows the tracked-id half of the claim does hold in the same
branch: a tracked id is removed from docs with exit and afterchange. -/
theorem claim4_zero_results_untracked_emits :
    LiveQuery.queryListenerPhase2 ⟨some 0, [], false, some 0⟩ 0
        ⟨"X", false, ⟨"X", "1-x", false, 0⟩⟩ [] =
      Except.ok ((⟨some 0, [], false, some 0⟩ : LQState),
        [Event.exit [("id", ⟨"X", "1-x", false, 0⟩)],
         Event.afterchange []]) ∧
    LiveQuery.queryListenerPhase2
        ⟨some 0, [("X", ⟨"X", "1-x", false, 0⟩)], false, some 0⟩ 0
        ⟨"X", false, ⟨"X", "2-x", false, 1⟩⟩ [] =
      Except.ok ((⟨some 0, [], false, some 0⟩ : LQState),
        [Event.exit [("id", ⟨"X", "2-x", false, 1⟩)],
         Event.afterchange []]) := ⟨rfl, rfl⟩

/-- C5: evaluation of the change listener at the failing input — a deletion
change for the tracked id TEST_DOC_0098. The dispatched exit event's payload
maps the literal property name "id" to the document (the source writes
`new ExitEvent({ id: changedDoc })` without computed-key brackets), so the
payload keys are not the affected document's id, unlike the enter and update
payloads built with `{ [id]: responseDoc }` in the same listener and unlike
every processDocs payload. -/
theorem claim5_exit_payload_literal_key :
    LiveQuery.queryListenerPhase1
        ⟨some 0, [("TEST_DOC_0098", ⟨"TEST_DOC_0098", "1-a", false, 0⟩)],
          false, some 0⟩ 0
        ⟨"TEST_DOC_0098", true, ⟨"TEST_DOC_0098", "2-a", true, 0⟩⟩ =
      Except.ok (Sum.inl ((⟨some 0, [], false, some 0⟩ : LQState),
        [Event.exit [("id", ⟨"TEST_DOC_0098", "2-a", true, 0⟩)],
         Event.afterchange []])) ∧
    keysOf [("id", (⟨"TEST_DOC_0098", "2-a", true, 0⟩ : Doc))] = ["id"] :=
  ⟨rfl, rfl⟩

theorem runPut_pre (docId : String) (pre : List PutEvt)
    (hpre : ∀ c, PutEvt.change c ∈ pre → c.id ≠ docId)
    (hpf : ∀ err, PutEvt.putFailed err ∉ pre) :
    pre.foldl (putStep docId) ⟨true, none⟩ = ⟨true, none⟩ := by
  induction pre with
  | nil => rfl
  | cons h t ih =>
      cases h with
      | change c =>
          have hc : c.id ≠ docId := hpre c (List.mem_cons_self _ _)
          rw [List.foldl_cons,
            show putStep docId ⟨true, none⟩ (PutEvt.change c) = ⟨true, none⟩ by
              simp [putStep, hc]]
          exact ih (fun c' hc' => hpre c' (List.mem_cons_of_mem _ hc'))
            (fun err herr => hpf err (List.mem_cons_of_mem _ herr))
      | putFailed err =>
          exact absurd (List.mem_cons_self _ _) (hpf err)

theorem putStep_absorb (docId : String) (l : List PutEvt)
    (v : Except String Change) : ∀ s : PutState, s.connected = false →
    s.settled = some v →
    (l.foldl (putStep docId) s).connected = false ∧
    (l.foldl (putStep docId) s).settled = some v := by
  induction l with
  | nil => intro s h1 h2; exact ⟨h1, h2⟩
  | cons h t ih =>
      intro s h1 h2
      cases h with
      | change c =>
          rw [List.foldl_cons,
            show putStep docId s (PutEvt.change c) = s by simp [putStep, h1]]
          exact ih s h1 h2
      | putFailed err =>
          rw [List.foldl_cons]
          refine ih _ rfl ?_
          show settle s.settled (Except.error err) = some v
          rw [h2]
          rfl

theorem runPost_pre (pre : List PostEvt)
    (hnr : ∀ id, PostEvt.postResolved id ∉ pre)
    (hnf : ∀ err, PostEvt.postFailed err ∉ pre) :
    ∀ q : List Change,
      ∃ q', pre.foldl postStep ⟨none, q, true, none, [], false⟩ =
        ⟨none, q', true, none, [], false⟩ := by
  induction pre with
  | nil => intro q; exact ⟨q, rfl⟩
  | cons h t ih =>
      intro q
      cases h with
      | change c =>
          rw [List.foldl_cons,
            show postStep ⟨none, q, true, none, [], false⟩ (PostEvt.change c) =
              ⟨none, q ++ [c], true, none, [], false⟩ by simp [postStep]]
          exact ih (fun id hid => hnr id (List.mem_cons_of_mem _ hid))
            (fun err herr => hnf err (List.mem_cons_of_mem _ herr)) (q ++ [c])
      | postResolved id => exact absurd (List.mem_cons_self _ _) (hnr id)
      | postFailed err => exact absurd (List.mem_cons_self _ _) (hnf err)

theorem postStep_absorb (l : List PostEvt) (v : Except String Change)
    (hnr : ∀ id, PostEvt.postResolved id ∉ l) :
    ∀ s : PostState, s.postResponse = none → s.connected = false →
    s.settled = some v → s.handled = [] → s.internalErr = false →
    (l.foldl postStep s).postResponse = none ∧
    (l.foldl postStep s).connected = false ∧
    (l.foldl postStep s).settled = some v ∧
    (l.foldl postStep s).handled = [] ∧
    (l.foldl postStep s).internalErr = false := by
  induction l with
  | nil => intro s h1 h2 h3 h4 h5; exact ⟨h1, h2, h3, h4, h5⟩
  | cons h t ih =>
      intro s h1 h2 h3 h4 h5
      have ih' := ih (fun id hid => hnr id (List.mem_cons_of_mem _ hid))
      cases h with
      | change c =>
          rw [List.foldl_cons,
            show postStep s (PostEvt.change c) = s by simp [postStep, h2]]
          exact ih' s h1 h2 h3 h4 h5
      | postResolved id => exact absurd (List.mem_cons_self _ _) (hnr id)
      | postFailed err =>
          rw [List.foldl_cons]
          refine ih' _ h1 rfl ?_ h4 h5
          show settle s.settled (Except.error err) = some v
          rw [h3]
          rfl

/-- C8: when the storage write underlying put or post fails, the change
listener registered solely to await that write is disconnected (no leak) and
the returned promise rejects with the write's error; for post, whose response
id never arrives, no queued change event is processed after the failure —
handleChange never runs on any change, and no internal error is raised. For
put, the hypotheses say only that no change matching the written id arrived
before the failure (the failed write produces none) and that the write fails
once. -/
theorem claim8_failed_write_cleanup :
    (∀ (docId : String) (pre post' : List PutEvt) (e : String),
      (∀ c, PutEvt.change c ∈ pre → c.id ≠ docId) →
      (∀ err, PutEvt.putFailed err ∉ pre) →
      (runPut docId (pre ++ PutEvt.putFailed e :: post')).connected = false ∧
      (runPut docId (pre ++ PutEvt.putFailed e :: post')).settled =
        some (Except.error e)) ∧
    (∀ (pre post' : List PostEvt) (e : String),
      (∀ id, PostEvt.postResolved id ∉ pre ++ PostEvt.postFailed e :: post') →
      (∀ err, PostEvt.postFailed err ∉ pre) →
      (runPost (pre ++ PostEvt.postFailed e :: post')).connected = false ∧
      (runPost (pre ++ PostEvt.postFailed e :: post')).settled =
        some (Except.error e) ∧
      (runPost (pre ++ PostEvt.postFailed e :: post')).handled = [] ∧
      (runPost (pre ++ PostEvt.postFailed e :: post')).internalErr = false) := by
  constructor
  · intro docId pre post' e hpre hpf
    unfold runPut
    rw [List.foldl_append, runPut_pre docId pre hpre hpf, List.foldl_cons,
      show putStep docId ⟨true, none⟩ (PutEvt.putFailed e) =
        ⟨false, some (Except.error e)⟩ from rfl]
    exact putStep_absorb docId post' (Except.error e) _ rfl rfl
  · intro pre post' e hnr hnf
    have hnrp : ∀ id, PostEvt.postResolved id ∉ pre := fun id hid =>
      hnr id (List.mem_append_left _ hid)
    have hnrq : ∀ id, PostEvt.postResolved id ∉ post' := fun id hid =>
      hnr id (List.mem_append_right _ (List.mem_cons_of_mem _ hid))
    obtain ⟨q', hq'⟩ := runPost_pre pre hnrp hnf []
    unfold runPost
    rw [List.foldl_append, hq', List.foldl_cons,
      show postStep ⟨none, q', true, none, [], false⟩ (PostEvt.postFailed e) =
        ⟨none, q', false, some (Except.error e), [], false⟩ from rfl]
    have h := postStep_absorb post' (Except.error e) hnrq
      ⟨none, q', false, some (Except.error e), [], false⟩ rfl rfl rfl rfl rfl
    exact ⟨h.2.1, h.2.2.1, h.2.2.2.1, h.2.2.2.2⟩

/-- Witness for C8 at concrete traces: a put of doc1 that observes one
unrelated change and then fails settles rejected; a post that queues one
change and then fails processes nothing. -/
theorem claim8_failed_write_cleanup_witness :
    (runPut "doc1" [PutEvt.change ⟨"other", false, ⟨"other", "1", false, 0⟩⟩,
        PutEvt.putFailed "boom",
        PutEvt.change ⟨"doc1", false, ⟨"doc1", "1", false, 0⟩⟩]).settled =
      some (Except.error "boom") ∧
    (runPost [PostEvt.change ⟨"x", false, ⟨"x", "1", false, 0⟩⟩,
        PostEvt.postFailed "bang"]).handled = [] := by
  constructor
  · exact (claim8_failed_write_cleanup.1 "doc1"
      [PutEvt.change ⟨"other", false, ⟨"other", "1", false, 0⟩⟩]
      [PutEvt.change ⟨"doc1", false, ⟨"doc1", "1", false, 0⟩⟩] "boom"
      (by
        intro c hc
        simp only [List.mem_singleton] at hc
        cases hc
        decide)
      (by intro err herr; simp at herr)).2
  · exact (claim8_failed_write_cleanup.2
      [PostEvt.change ⟨"x", false, ⟨"x", "1", false, 0⟩⟩] [] "bang"
      (by intro id hid; simp at hid)
      (by intro err herr; simp at herr)).2.2.1

open LiveQuery

theorem sysRun_nil (server : Nat → List Doc) (N : Nat) (s : Sys) :
    sysRun server N s [] = (s, []) := rfl

theorem sysRun_acc (server : Nat → List Doc) (N : Nat) (t : List Action) :
    ∀ (s1 : Sys) (ev : List (Option Nat × Event)),
      List.foldl (fun acc a => ((sysStep server N acc.1 a).1,
        acc.2 ++ (sysStep server N acc.1 a).2)) (s1, ev) t =
      ((sysRun server N s1 t).1, ev ++ (sysRun server N s1 t).2) := by
  induction t with
  | nil =>
      intro s1 ev
      simp [sysRun]
  | cons a rest ih =>
      intro s1 ev
      rw [show List.foldl (fun acc a => ((sysStep server N acc.1 a).1,
          acc.2 ++ (sysStep server N acc.1 a).2)) (s1, ev) (a :: rest) =
        List.foldl (fun acc a => ((sysStep server N acc.1 a).1,
          acc.2 ++ (sysStep server N acc.1 a).2))
          ((sysStep server N s1 a).1, ev ++ (sysStep server N s1 a).2) rest
        from rfl]
      rw [ih ((sysStep server N s1 a).1) (ev ++ (sysStep server N s1 a).2)]
      have h2 : sysRun server N s1 (a :: rest) =
          ((sysRun server N (sysStep server N s1 a).1 rest).1,
           ([] ++ (sysStep server N s1 a).2) ++
             (sysRun server N (sysStep server N s1 a).1 rest).2) := by
        rw [show sysRun server N s1 (a :: rest) =
          List.foldl (fun acc a => ((sysStep server N acc.1 a).1,
            acc.2 ++ (sysStep server N acc.1 a).2))
            ((sysStep server N s1 a).1, [] ++ (sysStep server N s1 a).2) rest
          from rfl]
        exact ih _ _
      rw [h2]
      simp [List.append_assoc]

theorem sysRun_cons (server : Nat → List Doc) (N : Nat) (s : Sys)
    (a : Action) (t : List Action) :
    sysRun server N s (a :: t) =
      ((sysRun server N (sysStep server N s a).1 t).1,
       (sysStep server N s a).2 ++
         (sysRun server N (sysStep server N s a).1 t).2) := by
  rw [show sysRun server N s (a :: t) =
      List.foldl (fun acc x => ((sysStep server N acc.1 x).1,
        acc.2 ++ (sysStep server N acc.1 x).2))
        ((sysStep server N s a).1, [] ++ (sysStep server N s a).2) t
      from rfl]
  rw [sysRun_acc server N t]
  simp

theorem sysRun_append (server : Nat → List Doc) (N : Nat)
    (l1 l2 : List Action) : ∀ s : Sys,
    sysRun server N s (l1 ++ l2) =
      ((sysRun server N (sysRun server N s l1).1 l2).1,
       (sysRun server N s l1).2 ++
         (sysRun server N (sysRun server N s l1).1 l2).2) := by
  induction l1 with
  | nil =>
      intro s
      simp [sysRun_nil]
  | cons a t ih =>
      intro s
      rw [List.cons_append, sysRun_cons, ih, sysRun_cons]
      simp [List.append_assoc]

theorem sysStep_closed (server : Nat → List Doc) (N : Nat) (s : Sys)
    (a : Action) : (sysStep server N s a).1.lq.closed = s.lq.closed := by
  cases a with
  | set q =>
      show (startQuery s q).1.lq.closed = s.lq.closed
      simp only [startQuery]
      split
      · rfl
      · cases q with
        | none => rfl
        | some qq => rfl
  | fire c =>
      show (fireCont server N s c).1.lq.closed = s.lq.closed
      simp only [fireCont]
      split
      · split
        · rfl
        · split <;> rfl
      · rfl

theorem sysRun_closed (server : Nat → List Doc) (N : Nat)
    (acts : List Action) : ∀ s : Sys,
    (sysRun server N s acts).1.lq.closed = s.lq.closed := by
  induction acts with
  | nil => intro s; rfl
  | cons a t ih =>
      intro s
      rw [sysRun_cons]
      exact (ih _).trans (sysStep_closed server N s a)

theorem fireCont_not_pending (server : Nat → List Doc) (N : Nat) (s : Sys)
    (c : Cont) (h : c ∉ s.pending) : fireCont server N s c = (s, []) := by
  simp only [fireCont]
  rw [if_neg h]

/-- A resumption whose captured query was superseded (or whose LiveQuery was
closed) while it was suspended is a pure no-op beyond being consumed: it
emits no events, does not touch docs, and does not subscribe (src/live-query
ts lines 148 to 151). -/
theorem fireCont_stale (server : Nat → List Doc) (N : Nat) (s : Sys)
    (c : Cont) (hmem : c ∈ s.pending)
    (hguard : s.lq.closed = true ∨ s.lq.query ≠ some c.qtok) :
    fireCont server N s c = ({ s with pending := s.pending.erase c }, []) := by
  simp only [fireCont]
  rw [if_pos hmem, if_pos hguard]

theorem fireCont_live_done (server : Nat → List Doc) (N : Nat) (s : Sys)
    (qt : Nat) (lim : Option Nat) (sk rcnt : Nat)
    (hmem : (⟨qt, lim, sk, rcnt⟩ : Cont) ∈ s.pending)
    (hcl : s.lq.closed = false) (hq : s.lq.query = some qt)
    (hstop : ((runFind (server qt) N lim sk).isEmpty ||
      shortPage lim (runFind (server qt) N lim sk).length) = true) :
    fireCont server N s ⟨qt, lim, sk, rcnt⟩ =
      ({ lq := { query := s.lq.query,
                 docs := (processDocs s.lq.docs (runFind (server qt) N lim sk)
                   (decide (rcnt = 1))).1,
                 closed := s.lq.closed, subscribed := some qt },
         pending := s.pending.erase ⟨qt, lim, sk, rcnt⟩ },
       (processDocs s.lq.docs (runFind (server qt) N lim sk)
         (decide (rcnt = 1))).2.map (fun e => (some qt, e))) := by
  simp only [fireCont]
  rw [if_pos hmem, if_neg (by simp [hcl, hq]), if_pos hstop]

theorem fireCont_live_next (server : Nat → List Doc) (N : Nat) (s : Sys)
    (qt : Nat) (lim : Option Nat) (sk rcnt : Nat)
    (hmem : (⟨qt, lim, sk, rcnt⟩ : Cont) ∈ s.pending)
    (hcl : s.lq.closed = false) (hq : s.lq.query = some qt)
    (hstop : ((runFind (server qt) N lim sk).isEmpty ||
      shortPage lim (runFind (server qt) N lim sk).length) = false) :
    fireCont server N s ⟨qt, lim, sk, rcnt⟩ =
      ({ lq := { query := s.lq.query,
                 docs := (processDocs s.lq.docs (runFind (server qt) N lim sk)
                   (decide (rcnt = 1))).1,
                 closed := s.lq.closed, subscribed := s.lq.subscribed },
         pending := s.pending.erase ⟨qt, lim, sk, rcnt⟩ ++
           [⟨qt, lim, sk + (runFind (server qt) N lim sk).length,
             rcnt + 1⟩] },
       (processDocs s.lq.docs (runFind (server qt) N lim sk)
         (decide (rcnt = 1))).2.map (fun e => (some qt, e))) := by
  simp only [fireCont]
  rw [if_pos hmem, if_neg (by simp [hcl, hq]), if_neg (by simp [hstop])]

/-- Merging one non-first page (replace unset) into a docs record that holds
exactly the first `skip` matching documents yields the record holding exactly
the first `skip + page.length` matching documents. -/
theorem page_merge_step (server : List Doc) (N : Nat)
    (hserver : (server.map Doc._id).Nodup)
    (hnodel : ∀ d ∈ server, d._deleted = false)
    (skip : Nat) (docs : Docs) (hnodup : (keysOf docs).Nodup)
    (hinv : ∀ id, getKey docs id =
      (server.take skip).find? (fun x => x._id == id)) :
    ∀ id, getKey (processDocs docs (runFind server N none skip) false).1 id =
      (server.take (skip + (runFind server N none skip).length)).find?
        (fun x => x._id == id) := by
  have hlen := runFind_none_length server N skip
  have hsubl : (runFind server N none skip).Sublist server :=
    (List.take_sublist _ _).trans (List.drop_sublist _ _)
  have hpagenodup : ((runFind server N none skip).map Doc._id).Nodup :=
    List.Nodup.sublist (hsubl.map Doc._id) hserver
  have hpagenodel : ∀ d ∈ runFind server N none skip, d._deleted = false :=
    fun d hd => hnodel d (hsubl.subset hd)
  have hdisj : ∀ d ∈ runFind server N none skip,
      hasKey docs d._id = false := by
    intro d hd
    rw [hasKey_eq_false_iff, hinv]
    apply find?_id_of_not_mem
    intro hmem
    exact take_drop_id_disjoint server skip hserver d._id hmem
      (List.mem_map_of_mem Doc._id ((List.take_sublist _ _).subset hd))
  have hmerge := processDocs_incremental docs (runFind server N none skip)
    hnodup hpagenodup hpagenodel hdisj
  have hpage_take : (server.drop skip).take
      (runFind server N none skip).length = runFind server N none skip := by
    rw [hlen, show server.length - skip = (server.drop skip).length by
      rw [List.length_drop]]
    exact take_min_length (server.drop skip) N
  intro id
  rw [hmerge id, List.take_add, hpage_take, List.find?_append]
  by_cases hidt : id ∈ (server.take skip).map Doc._id
  · have hidp : (runFind server N none skip).find? (fun x => x._id == id)
        = none := by
      apply find?_id_of_not_mem
      intro hmem
      exact take_drop_id_disjoint server skip hserver id hidt
        (by
          obtain ⟨d, hd, rfl⟩ := List.mem_map.mp hmem
          exact List.mem_map_of_mem Doc._id
            ((List.take_sublist _ _).subset hd))
    rw [hidp, hinv id]
    cases hft : (server.take skip).find? (fun x => x._id == id) <;> rfl
  · have hidt' : (server.take skip).find? (fun x => x._id == id) = none :=
      find?_id_of_not_mem _ id hidt
    rw [hidt', hinv id, hidt']
    cases hfp : (runFind server N none skip).find? (fun x => x._id == id) <;>
      rfl

/-- Merging the first page (replace set) into an arbitrary stale docs record
yields the record holding exactly the first page of matching documents. -/
theorem first_merge_step (server : List Doc) (N : Nat)
    (hserver : (server.map Doc._id).Nodup)
    (hnodel : ∀ d ∈ server, d._deleted = false)
    (docs0 : Docs) (hm : (keysOf docs0).Nodup)
    (hrev : ∀ p ∈ docs0, ∀ d ∈ server, p.1 = d._id → p.2._rev = d._rev →
      p.2 = d) :
    ∀ id, getKey (processDocs docs0 (runFind server N none 0) true).1 id =
      (server.take (0 + (runFind server N none 0).length)).find?
        (fun x => x._id == id) := by
  have hsubl : (runFind server N none 0).Sublist server :=
    (List.take_sublist _ _).trans (List.drop_sublist _ _)
  have hpagenodup : ((runFind server N none 0).map Doc._id).Nodup :=
    List.Nodup.sublist (hsubl.map Doc._id) hserver
  have hpagenodel : ∀ d ∈ runFind server N none 0, d._deleted = false :=
    fun d hd => hnodel d (hsubl.subset hd)
  have hrev' : ∀ p ∈ docs0, ∀ d ∈ runFind server N none 0,
      p.1 = d._id → p.2._rev = d._rev → p.2 = d :=
    fun p hp d hd => hrev p hp d (hsubl.subset hd)
  have hpage_take : server.take (0 + (runFind server N none 0).length) =
      runFind server N none 0 := by
    rw [Nat.zero_add, runFind_none_length, Nat.sub_zero, take_min_length]
    simp [runFind]
  intro id
  rw [hpage_take]
  exact processDocs_replace_fresh docs0 (runFind server N none 0) hm
    hpagenodup hpagenodel hrev' id

/-- One fired continuation preserves the resolution invariant, and every
event it emits is tagged with the resolving query's token. -/
theorem bres_step (server : Nat → List Doc) (N : Nat) (Btok : Nat)
    (docs0 : Docs) (hN : 1 ≤ N)
    (hserver : ((server Btok).map Doc._id).Nodup)
    (hnodel : ∀ d ∈ server Btok, d._deleted = false)
    (hm0 : (keysOf docs0).Nodup)
    (hrev0 : ∀ p ∈ docs0, ∀ d ∈ server Btok, p.1 = d._id →
      p.2._rev = d._rev → p.2 = d)
    (s : Sys) (c : Cont) (hInv : BResInv (server Btok) Btok docs0 s) :
    BResInv (server Btok) Btok docs0 (fireCont server N s c).1 ∧
    ∀ ev ∈ (fireCont server N s c).2, ev.1 = some Btok := by
  obtain ⟨hq, hcl, hphase⟩ := hInv
  by_cases hmem : c ∈ s.pending
  · by_cases hbq : c.qtok = Btok
    · rcases hphase with ⟨hd, hsub, hcount, huniq⟩ |
        ⟨skip, rc, h1, h2, h3, hsub, hcount, huniq, hnd, hdocs⟩ |
        ⟨hnb, hsub, hdocs⟩
      · -- phase a: the first find is in flight and this is it
        have hc1 : c = ⟨Btok, none, 0, 1⟩ := huniq c hmem hbq
        subst hc1
        have hvout : (⟨Btok, none, 0, 1⟩ : Cont) ∉
            s.pending.erase (⟨Btok, none, 0, 1⟩ : Cont) := by
          apply List.count_eq_zero.mp
          rw [List.count_erase_self, hcount]
        by_cases hLz : (server Btok).length = 0
        · have hsrv : server Btok = [] := List.length_eq_zero.mp hLz
          have hpe : runFind (server Btok) N none 0 = [] := by
            rw [hsrv]; simp [runFind]
          have hstop : ((runFind (server Btok) N none 0).isEmpty ||
              shortPage none (runFind (server Btok) N none 0).length)
              = true := by
            rw [hpe]; rfl
          rw [fireCont_live_done server N s Btok none 0 1 hmem hcl hq hstop]
          refine ⟨⟨hq, hcl, Or.inr (Or.inr ⟨?_, rfl, ?_⟩)⟩, ?_⟩
          · intro c' hc' hq'
            have hcv := huniq c' (List.mem_of_mem_erase hc') hq'
            rw [hcv] at hc'
            exact hvout hc'
          · intro id
            show getKey (processDocs s.lq.docs
                (runFind (server Btok) N none 0) true).1 id =
              (server Btok).find? (fun x => x._id == id)
            rw [hd]
            rw [first_merge_step (server Btok) N hserver hnodel docs0 hm0
              hrev0 id]
            rw [hsrv]
            simp
          · intro ev hev
            obtain ⟨e, he, rfl⟩ := List.mem_map.mp hev
            rfl
        · have hpos : 0 < (runFind (server Btok) N none 0).length := by
            rw [runFind_none_length]; omega
          have hne : runFind (server Btok) N none 0 ≠ [] := by
            intro h
            rw [h] at hpos
            simp at hpos
          have hstop : ((runFind (server Btok) N none 0).isEmpty ||
              shortPage none (runFind (server Btok) N none 0).length)
              = false := by
            simp [List.isEmpty_iff, shortPage, hne]
          rw [fireCont_live_next server N s Btok none 0 1 hmem hcl hq hstop]
          refine ⟨⟨hq, hcl, Or.inr (Or.inl
            ⟨0 + (runFind (server Btok) N none 0).length, 1 + 1,
             ?_, ?_, ?_, hsub, ?_, ?_, ?_, ?_⟩)⟩, ?_⟩
          · omega
          · rw [runFind_none_length]; omega
          · omega
          · have hnew : (⟨Btok, none,
                0 + (runFind (server Btok) N none 0).length, 1 + 1⟩ : Cont) ∉
                s.pending.erase (⟨Btok, none, 0, 1⟩ : Cont) := by
              intro hmem'
              have heq := huniq _ (List.mem_of_mem_erase hmem') rfl
              have h4 : (1 : Nat) + 1 = 1 := congrArg Cont.requestCount heq
              omega
            rw [List.count_append, List.count_eq_zero.mpr hnew]
            simp
          · intro c' hc' hq'
            rcases List.mem_append.mp hc' with h | h
            · have hcv := huniq c' (List.mem_of_mem_erase h) hq'
              rw [hcv] at h
              exact absurd h hvout
            · exact List.mem_singleton.mp h
          · show (keysOf (processDocs s.lq.docs
              (runFind (server Btok) N none 0) true).1).Nodup
            rw [hd]
            exact processDocs_nodup docs0 _ true hm0
          · intro id
            show getKey (processDocs s.lq.docs
                (runFind (server Btok) N none 0) true).1 id =
              ((server Btok).take
                (0 + (runFind (server Btok) N none 0).length)).find?
                (fun x => x._id == id)
            rw [hd]
            exact first_merge_step (server Btok) N hserver hnodel docs0 hm0
              hrev0 id
          · intro ev hev
            obtain ⟨e, he, rfl⟩ := List.mem_map.mp hev
            rfl
      · -- phase b: a later find is in flight and this is it
        have hc1 : c = ⟨Btok, none, skip, rc⟩ := huniq c hmem hbq
        subst hc1
        have hvout : (⟨Btok, none, skip, rc⟩ : Cont) ∉
            s.pending.erase (⟨Btok, none, skip, rc⟩ : Cont) := by
          apply List.count_eq_zero.mp
          rw [List.count_erase_self, hcount]
        have hflag : decide (rc = 1) = false := decide_eq_false (by omega)
        by_cases hsl : skip < (server Btok).length
        · have hpos : 0 < (runFind (server Btok) N none skip).length := by
            rw [runFind_none_length]; omega
          have hne : runFind (server Btok) N none skip ≠ [] := by
            intro h
            rw [h] at hpos
            simp at hpos
          have hstop : ((runFind (server Btok) N none skip).isEmpty ||
              shortPage none (runFind (server Btok) N none skip).length)
              = false := by
            simp [List.isEmpty_iff, shortPage, hne]
          rw [fireCont_live_next server N s Btok none skip rc hmem hcl hq
            hstop]
          refine ⟨⟨hq, hcl, Or.inr (Or.inl
            ⟨skip + (runFind (server Btok) N none skip).length, rc + 1,
             ?_, ?_, ?_, hsub, ?_, ?_, ?_, ?_⟩)⟩, ?_⟩
          · omega
          · rw [runFind_none_length]; omega
          · omega
          · have hnew : (⟨Btok, none,
                skip + (runFind (server Btok) N none skip).length,
                rc + 1⟩ : Cont) ∉
                s.pending.erase (⟨Btok, none, skip, rc⟩ : Cont) := by
              intro hmem'
              have heq := huniq _ (List.mem_of_mem_erase hmem') rfl
              have h4 : rc + 1 = rc := congrArg Cont.requestCount heq
              omega
            rw [List.count_append, List.count_eq_zero.mpr hnew]
            simp
          · intro c' hc' hq'
            rcases List.mem_append.mp hc' with h | h
            · have hcv := huniq c' (List.mem_of_mem_erase h) hq'
              rw [hcv] at h
              exact absurd h hvout
            · exact List.mem_singleton.mp h
          · show (keysOf (processDocs s.lq.docs
              (runFind (server Btok) N none skip) (decide (rc = 1))).1).Nodup
            exact processDocs_nodup s.lq.docs _ _ hnd
          · intro id
            show getKey (processDocs s.lq.docs
                (runFind (server Btok) N none skip) (decide (rc = 1))).1 id =
              ((server Btok).take
                (skip + (runFind (server Btok) N none skip).length)).find?
                (fun x => x._id == id)
            rw [hflag]
            exact page_merge_step (server Btok) N hserver hnodel skip
              s.lq.docs hnd hdocs id
          · intro ev hev
            obtain ⟨e, he, rfl⟩ := List.mem_map.mp hev
            rfl
        · have hse : skip = (server Btok).length := by omega
          have hpe : runFind (server Btok) N none skip = [] := by
            rw [hse]
            simp [runFind]
          have hstop : ((runFind (server Btok) N none skip).isEmpty ||
              shortPage none (runFind (server Btok) N none skip).length)
              = true := by
            rw [hpe]; rfl
          rw [fireCont_live_done server N s Btok none skip rc hmem hcl hq
            hstop]
          refine ⟨⟨hq, hcl, Or.inr (Or.inr ⟨?_, rfl, ?_⟩)⟩, ?_⟩
          · intro c' hc' hq'
            have hcv := huniq c' (List.mem_of_mem_erase hc') hq'
            rw [hcv] at hc'
            exact hvout hc'
          · intro id
            show getKey (processDocs s.lq.docs
                (runFind (server Btok) N none skip) (decide (rc = 1))).1 id =
              (server Btok).find? (fun x => x._id == id)
            rw [hpe, hflag,
              LiveQuery.processDocs_shortcircuit s.lq.docs [] false rfl rfl
              rfl]
            show getKey s.lq.docs id =
              (server Btok).find? (fun x => x._id == id)
            rw [hdocs id, hse, List.take_length]
          · intro ev hev
            obtain ⟨e, he, rfl⟩ := List.mem_map.mp hev
            rfl
      · -- phase c: resolved, so no pending continuation carries the token
        exact absurd hbq (hnb c hmem)
    · -- a continuation of a different (superseded) query: discarded
      have hguard : s.lq.closed = true ∨ s.lq.query ≠ some c.qtok :=
        Or.inr (by rw [hq]; intro h; exact hbq (Option.some.inj h).symm)
      rw [fireCont_stale server N s c hmem hguard]
      refine ⟨⟨hq, hcl, ?_⟩, fun ev hev => absurd hev (List.not_mem_nil ev)⟩
      rcases hphase with ⟨hd, hsub, hcount, huniq⟩ |
        ⟨skip, rc, h1, h2, h3, hsub, hcount, huniq, hnd, hdocs⟩ |
        ⟨hnb, hsub, hdocs⟩
      · refine Or.inl ⟨hd, hsub, ?_, ?_⟩
        · rw [List.count_erase_of_ne (fun he => hbq (by rw [← he]))]
          exact hcount
        · exact fun c' hc' => huniq c' (List.mem_of_mem_erase hc')
      · refine Or.inr (Or.inl ⟨skip, rc, h1, h2, h3, hsub, ?_, ?_, hnd,
          hdocs⟩)
        · rw [List.count_erase_of_ne (fun he => hbq (by rw [← he]))]
          exact hcount
        · exact fun c' hc' => huniq c' (List.mem_of_mem_erase hc')
      · exact Or.inr (Or.inr ⟨fun c' hc' =>
          hnb c' (List.mem_of_mem_erase hc'), hsub, hdocs⟩)
  · rw [fireCont_not_pending server N s c hmem]
    exact ⟨⟨hq, hcl, hphase⟩, fun ev hev => absurd hev (List.not_mem_nil ev)⟩

/-- Running any sequence of continuation resumptions from a state satisfying
the resolution invariant keeps the invariant, and every emitted event is
tagged with the resolving query's token. -/
theorem bres_run (server : Nat → List Doc) (N : Nat) (Btok : Nat)
    (docs0 : Docs) (hN : 1 ≤ N)
    (hserver : ((server Btok).map Doc._id).Nodup)
    (hnodel : ∀ d ∈ server Btok, d._deleted = false)
    (hm0 : (keysOf docs0).Nodup)
    (hrev0 : ∀ p ∈ docs0, ∀ d ∈ server Btok, p.1 = d._id →
      p.2._rev = d._rev → p.2 = d)
    (rest : List Action) :
    ∀ s : Sys, (∀ a ∈ rest, a.isFire = true) →
      BResInv (server Btok) Btok docs0 s →
      BResInv (server Btok) Btok docs0 (sysRun server N s rest).1 ∧
      ∀ ev ∈ (sysRun server N s rest).2, ev.1 = some Btok := by
  induction rest with
  | nil =>
      intro s _ hInv
      exact ⟨hInv, fun ev hev => absurd hev (List.not_mem_nil ev)⟩
  | cons a t ih =>
      intro s hfires hInv
      have ha := hfires a (List.mem_cons_self a t)
      cases a with
      | set q => simp [Action.isFire] at ha
      | fire c =>
          have hstep := bres_step server N Btok docs0 hN hserver hnodel hm0
            hrev0 s c hInv
          have hrec := ih (fireCont server N s c).1
            (fun x hx => hfires x (List.mem_cons_of_mem _ hx)) hstep.1
          rw [sysRun_cons]
          refine ⟨hrec.1, ?_⟩
          intro ev hev
          rcases List.mem_append.mp hev with h | h
          · exact hstep.2 ev h
          · exact hrec.2 ev h

/-- C2: docs only ever reflects the currently set query — if setQuery(A) is
still paging (its find continuations pending, none of them for B) when
setQuery(B) is called, then: the setQuery(B) call itself emits nothing
synchronously; every event emitted afterwards (while the event loop resumes
any mix of stale A continuations and B's own paging) is attributable to B's
query token, so no enter/exit/update of A's resolution is ever emitted after
B is set and no page fetched for A is merged; the change listener is only
ever subscribed for B's token; and once no continuation is left pending, B's
resolution has completed — the listener is subscribed for B and docs holds
exactly the documents matching B. -/
theorem claim2_superseded_resolution (server : Nat → List Doc) (N : Nat)
    (B : Query) (init : Sys) (pre rest : List Action)
    (hN : 1 ≤ N) (hBlimit : B.limit = none) (hBskip : B.skip = none)
    (hserver : ((server B.token).map Doc._id).Nodup)
    (hnodel : ∀ d ∈ server B.token, d._deleted = false)
    (hinitcl : init.lq.closed = false)
    (hfresh : (sysRun server N init pre).1.lq.query ≠ some B.token)
    (hstale : ∀ c ∈ (sysRun server N init pre).1.pending,
      c.qtok ≠ B.token)
    (hm0 : (keysOf (sysRun server N init pre).1.lq.docs).Nodup)
    (hrev0 : ∀ p ∈ (sysRun server N init pre).1.lq.docs,
      ∀ d ∈ server B.token, p.1 = d._id → p.2._rev = d._rev → p.2 = d)
    (hfires : ∀ a ∈ rest, a.isFire = true) :
    (sysRun server N init (pre ++ [Action.set (some B)])).2 =
      (sysRun server N init pre).2 ∧
    (∀ ev ∈ (sysRun server N
        (sysRun server N init (pre ++ [Action.set (some B)])).1 rest).2,
      ev.1 = some B.token) ∧
    ((sysRun server N
        (sysRun server N init (pre ++ [Action.set (some B)])).1
        rest).1.lq.subscribed = none ∨
     (sysRun server N
        (sysRun server N init (pre ++ [Action.set (some B)])).1
        rest).1.lq.subscribed = some B.token) ∧
    ((sysRun server N
        (sysRun server N init (pre ++ [Action.set (some B)])).1
        rest).1.pending = [] →
      (sysRun server N
          (sysRun server N init (pre ++ [Action.set (some B)])).1
          rest).1.lq.subscribed = some B.token ∧
      ∀ id, getKey (sysRun server N
          (sysRun server N init (pre ++ [Action.set (some B)])).1
          rest).1.lq.docs id =
        (server B.token).find? (fun x => x._id == id)) := by
  have hcond : ¬((some B).map Query.token =
      (sysRun server N init pre).1.lq.query) := by
    intro h
    exact hfresh h.symm
  have hstart : startQuery (sysRun server N init pre).1 (some B) =
      ({ lq := { query := some B.token,
                 docs := (sysRun server N init pre).1.lq.docs,
                 closed := (sysRun server N init pre).1.lq.closed,
                 subscribed := none },
         pending := (sysRun server N init pre).1.pending ++
           [⟨B.token, B.limit, B.skip.getD 0, 1⟩] }, []) := by
    simp only [startQuery]
    rw [if_neg hcond]
  have hcl0 : (sysRun server N init pre).1.lq.closed = false := by
    rw [sysRun_closed]
    exact hinitcl
  have hs1 : (sysRun server N init (pre ++ [Action.set (some B)])).1 =
      { lq := { query := some B.token,
                docs := (sysRun server N init pre).1.lq.docs,
                closed := (sysRun server N init pre).1.lq.closed,
                subscribed := none },
        pending := (sysRun server N init pre).1.pending ++
          [⟨B.token, none, 0, 1⟩] } := by
    rw [sysRun_append]
    show (startQuery (sysRun server N init pre).1 (some B)).1 = _
    rw [hstart, hBlimit, hBskip]
    rfl
  have hInv1 : BResInv (server B.token) B.token
      (sysRun server N init pre).1.lq.docs
      (sysRun server N init (pre ++ [Action.set (some B)])).1 := by
    rw [hs1]
    refine ⟨rfl, hcl0, Or.inl ⟨rfl, rfl, ?_, ?_⟩⟩
    · rw [List.count_append,
        List.count_eq_zero.mpr (fun hmem => hstale _ hmem rfl)]
      simp
    · intro c' hc' hq'
      rcases List.mem_append.mp hc' with h | h
      · exact absurd hq' (hstale c' h)
      · exact List.mem_singleton.mp h
  have hrun := bres_run server N B.token
    (sysRun server N init pre).1.lq.docs hN hserver hnodel hm0 hrev0 rest
    (sysRun server N init (pre ++ [Action.set (some B)])).1 hfires hInv1
  obtain ⟨hInvF, hevs⟩ := hrun
  refine ⟨?_, hevs, ?_, ?_⟩
  · rw [sysRun_append]
    show (sysRun server N init pre).2 ++
      ([] ++ (startQuery (sysRun server N init pre).1 (some B)).2) =
      (sysRun server N init pre).2
    rw [hstart]
    simp
  · obtain ⟨-, -, hph⟩ := hInvF
    rcases hph with ⟨-, hsub, -, -⟩ |
      ⟨skip, rc, -, -, -, hsub, -, -, -, -⟩ | ⟨-, hsub, -⟩
    · exact Or.inl hsub
    · exact Or.inl hsub
    · exact Or.inr hsub
  · intro hempty
    obtain ⟨-, -, hph⟩ := hInvF
    rcases hph with ⟨-, -, hcount, -⟩ |
      ⟨skip, rc, -, -, -, -, hcount, -, -, -⟩ | ⟨-, hsub, hdocs⟩
    · rw [hempty] at hcount
      simp at hcount
    · rw [hempty] at hcount
      simp at hcount
    · exact ⟨hsub, hdocs⟩

/-- Witness for C2 at a concrete interleaving: query A (token 0) is set and
its first find suspends; query B (token 1) is then set; the event loop
resumes A's stale continuation (discarded) and B's two finds. B's resolution
completes: the listener is subscribed for token 1 and docs holds exactly the
one document matching B. -/
theorem claim2_superseded_resolution_witness :
    (sysRun (fun _ => [⟨"B", "1-b", false, 7⟩]) 25
        (sysRun (fun _ => [⟨"B", "1-b", false, 7⟩]) 25
          ⟨⟨none, [], false, none⟩, []⟩
          ([Action.set (some ⟨0, none, none⟩)] ++
            [Action.set (some ⟨1, none, none⟩)])).1
        [Action.fire ⟨0, none, 0, 1⟩, Action.fire ⟨1, none, 0, 1⟩,
         Action.fire ⟨1, none, 1, 2⟩]).1.lq.subscribed = some 1 ∧
    ∀ id, getKey (sysRun (fun _ => [⟨"B", "1-b", false, 7⟩]) 25
        (sysRun (fun _ => [⟨"B", "1-b", false, 7⟩]) 25
          ⟨⟨none, [], false, none⟩, []⟩
          ([Action.set (some ⟨0, none, none⟩)] ++
            [Action.set (some ⟨1, none, none⟩)])).1
        [Action.fire ⟨0, none, 0, 1⟩, Action.fire ⟨1, none, 0, 1⟩,
         Action.fire ⟨1, none, 1, 2⟩]).1.lq.docs id =
      [(⟨"B", "1-b", false, 7⟩ : Doc)].find? (fun x => x._id == id) :=
  (claim2_superseded_resolution (fun _ => [⟨"B", "1-b", false, 7⟩]) 25
    ⟨1, none, none⟩ ⟨⟨none, [], false, none⟩, []⟩
    [Action.set (some ⟨0, none, none⟩)]
    [Action.fire ⟨0, none, 0, 1⟩, Action.fire ⟨1, none, 0, 1⟩,
     Action.fire ⟨1, none, 1, 2⟩]
    (by decide) rfl rfl (by decide) (by decide) rfl (by decide) (by decide)
    (by decide) (by decide) (by decide)).2.2.2 (by decide)

/-- C10: the two diff-and-emit implementations are behaviourally equivalent —
Subscription.processDocs (src/subscription.ts) and LiveQuery.processDocs
(src/live-query.ts) build identical enter/update/exit buckets, return the
identical event sequence with identical payloads, and leave identical final
docs records, on every initial docs state, incoming list and replace flag. -/
theorem claim10_processDocs_equivalent :
    (∀ (docs : Docs) (incoming : List Doc) (replace : Bool),
      Subscription.computeBuckets docs incoming replace =
        LiveQuery.computeBuckets docs incoming replace) ∧
    (∀ (docs : Docs) (incoming : List Doc) (replace : Bool),
      Subscription.processDocs docs incoming replace =
        LiveQuery.processDocs docs incoming replace) :=
  ⟨fun _ _ _ => rfl, fun _ _ _ => rfl⟩

end HeartDB
